import Mathlib

/-!
# XBLY to XML translator (`xbly.c`)

A shallow embedding of the character-at-a-time state machine of `xbly.c`
and of its element-name stack, followed by theorems about it.

Conventions of the embedding

* C `int` values (`current`, `next`, `nameStackTop`, `nameLen`, `seenQuote`)
  are `Int`.  No arithmetic of the program can overflow an `int`:
  `nameLen` stays below `CHAR_MAX` and `nameStackTop` below `NAMESTACKZ`.
* `char` is the signed 8-bit type (`CHAR_MAX = 127`); storing an `int` into
  `nameStack` converts it with `toChar`, and `fputc` converts its argument
  to `unsigned char`, that is, reduces it modulo 256.
* `stdin` is the list of bytes still to be read, each in `0 .. 255`;
  `fgetc` at the end of the list is `EOF = -1`.
* `stdout` is the list of bytes written so far.
* `exit(1)` and `return -1` are `Except.error`, carrying the kind of the
  failure and the machine at the moment of the failure (so that what had
  been written before the failure can be observed).
-/

namespace Xbly

/-! ## Data model -/

/-- Parser states (`enum estate`). -/
inductive estate
  | ParsingStart
  | ParsingElementName
  | ParsingAttributes
  | ParsingAttribute
  | ParsingAttributeValue
  | ParsingText
  | ParsingTextEscaped
  deriving DecidableEq, Repr

/-- Fatal conditions, one per diagnostic of the program:
"element name too long", "stack overflow", "stack underflow",
"illegal escape sequence", "unexpected EOF". -/
inductive Fatal
  | NameTooLong
  | StackOverflow
  | StackUnderflow
  | IllegalEscapeSequence
  | UnexpectedEndOfInput
  deriving DecidableEq, Repr

/-- Value of `EOF`. -/
def EOF : Int := -1

/-- Value of `CHAR_MAX` for a signed 8-bit `char`. -/
def CHAR_MAX : Int := 127

/-- Size of the name stack: `#define NAMESTACKZ (16*1024)`. -/
def NAMESTACKZ : Int := 16 * 1024

/-- The macro `whitespace(x)`, i.e. `isspace(x) != 0` in the C locale: space, and
the five control characters tab, newline, vertical tab, form feed, carriage
return.  `isspace(EOF)` is zero. -/
def whitespace (x : Int) : Bool :=
  x == 32 || x == 9 || x == 10 || x == 11 || x == 12 || x == 13

/-- Conversion of an `int` to (signed, 8-bit) `char`, as in `(char) a`. -/
def toChar (a : Int) : Int := (a + 128) % 256 - 128

/-- The global variables of the program, the local `seenQuote` of `main`, and
the bytes written to `stdout`. -/
structure Machine where
  state : estate
  nameStack : Int → Int
  nameStackTop : Int
  nameLen : Int
  seenQuote : Int
  stdout : List Int

/-- The machine at program start: `state = ParsingStart`, a zero-initialised
stack, `nameStackTop = 0`, `nameLen = 0`, `seenQuote = 0`, nothing written. -/
def Machine.init : Machine where
  state := estate.ParsingStart
  nameStack := fun _ => 0
  nameStackTop := 0
  nameLen := 0
  seenQuote := 0
  stdout := []

/-- Result of a fallible operation: either the next machine, or the failure
and the machine at the point of failure. -/
abbrev Run := Except (Fatal × Machine) Machine

/-! ## Output -/

/-- The call `fputc(c, stdout)`: writes `c` converted to `unsigned char`. -/
def fputc (c : Int) (m : Machine) : Machine :=
  { m with stdout := m.stdout ++ [c % 256] }

/-- The call `fputs(s, stdout)` for a string constant `s` given by its bytes. -/
def fputs (s : List Int) (m : Machine) : Machine :=
  { m with stdout := m.stdout ++ s }

/-! ## The name stack -/

/-- The function `push(a)`: push a character or length on to the stack. -/
def push (a : Int) (m : Machine) : Run :=
  if m.nameLen ≥ CHAR_MAX then
    .error (Fatal.NameTooLong, m)
  else if m.nameStackTop ≥ NAMESTACKZ then
    .error (Fatal.StackOverflow, m)
  else
    .ok { m with
      nameLen := m.nameLen + 1
      nameStack := fun i => if i = m.nameStackTop then toChar a else m.nameStack i
      nameStackTop := m.nameStackTop + 1 }

/-- The `for` loop of `pop_name`: starting at index `i`, `fuel` iterations of
`fputc(nameStack[i], stdout); i++`. -/
def pop_name_loop (m : Machine) (i : Int) : Nat → Machine
  | 0 => m
  | fuel + 1 => pop_name_loop (fputc (m.nameStack i) m) (i + 1) fuel

/-- The function `pop_name()`: pop and print a name from the stack.  The loop
`for (i = top - len - 1; i < top - 1; i++)` runs `((top - 1) - (top - len - 1))`
times when that number is positive and not at all otherwise. -/
def pop_name (m : Machine) : Run :=
  if m.nameStackTop ≤ 0 then
    .error (Fatal.StackUnderflow, m)
  else
    let m1 := fputc 60 m        -- '<'
    let m2 := fputc 47 m1       -- '/'
    let len := m2.nameStack (m2.nameStackTop - 1)
    let i0 := m2.nameStackTop - len - 1
    let m3 := pop_name_loop m2 i0 ((m2.nameStackTop - 1) - i0).toNat
    let m4 := { m3 with nameStackTop := m3.nameStackTop - len - 1 }
    .ok (fputc 62 m4)           -- '>'

/-- The function `discard_name()`: discard the top name from the stack. -/
def discard_name (m : Machine) : Run :=
  if m.nameStackTop ≤ 0 then
    .error (Fatal.StackUnderflow, m)
  else
    let len := m.nameStack (m.nameStackTop - 1)
    .ok { m with nameStackTop := m.nameStackTop - len - 1 }

/-- The function `start_element_name()`: writes `<`, enters `ParsingElementName`
and resets `nameLen`. -/
def start_element_name (m : Machine) : Machine :=
  { fputc 60 m with state := estate.ParsingElementName, nameLen := 0 }

/-! ## The state machine -/

/-- One iteration of the body of the `while` loop of `main`: the `switch` on
`state`, with `current` the byte being consumed and `next` the lookahead
(`EOF` when `current` is the last byte). -/
def step (m : Machine) (current next : Int) : Run :=
  match m.state with
  | .ParsingStart =>
    if current = 40 then                         -- '('
      .ok (start_element_name m)
    else
      .ok (fputc current m)
  | .ParsingElementName =>
    if whitespace current then do
      let m1 ← push m.nameLen (fputc current m)
      pure { m1 with state := estate.ParsingAttributes }
    else if current = 41 then do                 -- ')'
      let m1 ← push m.nameLen m
      let m2 ← discard_name m1
      pure { fputs [32, 47, 62] m2 with state := estate.ParsingText }   -- " />"
    else
      push current (fputc current m)
  | .ParsingAttributes =>
    if current = 40 then                         -- '('
      .ok (start_element_name (fputc 62 m))
    else if current = 41 then do                 -- ')'
      let m1 ← discard_name m
      pure { fputs [32, 47, 62] m1 with state := estate.ParsingText }
    else if whitespace current then
      .ok (fputc current m)
    else if current = 92 then                    -- '\\'
      if next = 92 ∨ next = 40 ∨ next = 41 then
        .ok { fputc current (fputc 62 m) with state := estate.ParsingText }
      else if whitespace next then
        .ok { fputc 62 m with state := estate.ParsingText }
      else
        .ok { m with state := estate.ParsingAttribute }
    else
      .ok { fputc current (fputc 62 m) with state := estate.ParsingText }
  | .ParsingAttribute =>
    let m1 := fputc current m
    if current = 61 then                         -- '='
      .ok { m1 with state := estate.ParsingAttributeValue, seenQuote := 0 }
    else if current = 32 then                    -- ' '
      .ok { m1 with state := estate.ParsingAttributes }
    else
      .ok m1
  | .ParsingAttributeValue =>
    let m1 := fputc current m
    if m1.seenQuote ≠ 0 then
      if current = m1.seenQuote then
        .ok { m1 with state := estate.ParsingAttributes }
      else
        .ok m1
    else
      if current = 34 ∨ current = 39 then        -- '"' or '\''
        .ok { m1 with seenQuote := current }
      else
        .ok m1
  | .ParsingText =>
    if current = 40 then                         -- '('
      .ok (start_element_name m)
    else if current = 41 then                    -- ')'
      pop_name m
    else if current = 92 then                    -- '\\'
      .ok { m with state := estate.ParsingTextEscaped }
    else
      .ok (fputc current m)
  | .ParsingTextEscaped =>
    if current = 40 ∨ current = 41 ∨ current = 92 ∨ whitespace current then
      .ok { fputc current m with state := estate.ParsingText }
    else
      .error (Fatal.IllegalEscapeSequence, m)

/-- The lookahead read by `next = fgetc(stdin)`: the first unread byte, or
`EOF`. -/
def peek : List Int → Int
  | [] => EOF
  | b :: _ => b

/-- The `while (next != EOF)` loop of `main`, over the unread bytes of `stdin`
(the head of the list is the byte held in `next`). -/
def mainLoop (m : Machine) : List Int → Run
  | [] => .ok m
  | current :: rest => do
    let m1 ← step m current (peek rest)
    mainLoop m1 rest

/-- The function `main`, from the initial machine: the loop, then the check
`if (nameStackTop)`.  Stream errors (`ferror`) are outside the model, so
`.ok` is exit status zero. -/
def main (stdin : List Int) : Run := do
  let m ← mainLoop Machine.init stdin
  if m.nameStackTop ≠ 0 then
    .error (Fatal.UnexpectedEndOfInput, m)
  else
    pure m

/-! ## Observations -/

/-- A well-formed input byte: a value `fgetc` can return other than `EOF`. -/
def isByte (b : Int) : Prop := 0 ≤ b ∧ b < 256

instance (b : Int) : Decidable (isByte b) := by unfold isByte; infer_instance

/-- A well-formed input: every element is a byte. -/
def ValidInput (l : List Int) : Prop := ∀ b ∈ l, isByte b

instance (l : List Int) : Decidable (ValidInput l) := by unfold ValidInput; infer_instance

/-- The failure of a run, `none` for success. -/
def failure : Run → Option Fatal
  | .ok _ => none
  | .error (e, _) => some e

/-- The bytes on `stdout` when a run ends, in success or in failure. -/
def written : Run → List Int
  | .ok m => m.stdout
  | .error (_, m) => m.stdout

/-- The machine at the end of a run, in success or in failure. -/
def final : Run → Machine
  | .ok m => m
  | .error (_, m) => m

/-- The bytes of an ASCII string constant. -/
def bytes (s : String) : List Int := s.toList.map (fun c => (c.toNat : Int))

/-! ## Runs over a segment of the input -/

/-- The lookahead inside a segment of the input that is followed by the byte
`after`. -/
def peekOr (after : Int) : List Int → Int
  | [] => after
  | b :: _ => b

/-- The loop of `main` over a segment of the input that is followed by more
input: `after` is the lookahead at the last byte of the segment.  With
`after = EOF` this is `mainLoop` (`mainLoop_eq_seg`). -/
def mainLoopSeg (m : Machine) (after : Int) : List Int → Run
  | [] => .ok m
  | current :: rest => do
    let m1 ← step m current (peekOr after rest)
    mainLoopSeg m1 after rest

/-- The run of the program from its initial machine over the input consumed so
far, `pre`, when the next unread byte is `after`. -/
def reach (pre : List Int) (after : Int) : Run :=
  mainLoopSeg Machine.init after pre

/-- The `k` cells of the stack array `f` from index `i` on. -/
def readBytes (f : Int → Int) (i : Int) : Nat → List Int
  | 0 => []
  | k + 1 => f i :: readBytes f (i + 1) k

/-! ## The translator of the specification, with an abstract name stack

The second definition of the refinement: the translator as the specification
words it (transition table, escape-lookahead rule, name-stack discipline), with
the Element Name Stack an ordered sequence of name records instead of a byte
array: a list of names, the most recently opened element first. -/

/-- State of the specification's translator. -/
structure Spec where
  state : estate
  /-- Names of the currently open elements, most recently opened first. -/
  openNames : List (List Int)
  /-- The name being captured (meaningful in `ParsingElementName`). -/
  capture : List Int
  /-- Quote tracking: the currently open quote character, or none. -/
  quote : Option Int
  out : List Int

/-- The specification's translator before any input: state Start, empty stack. -/
def Spec.init : Spec where
  state := estate.ParsingStart
  openNames := []
  capture := []
  quote := none
  out := []

/-- Result of a step of the specification's translator. -/
abbrev SpecRun := Except (Fatal × Spec) Spec

/-- Emit bytes. -/
def Spec.emit (bs : List Int) (a : Spec) : Spec :=
  { a with out := a.out ++ bs }

/-- Open element: emit `<` and begin name capture. -/
def Spec.beginCapture (a : Spec) : Spec :=
  { a.emit [60] with state := estate.ParsingElementName, capture := [] }

/-- Push the captured name as a record of the stack. -/
def Spec.pushName (a : Spec) : Spec :=
  { a with openNames := a.capture :: a.openNames }

/-- Discard: remove the top record without emission; `StackUnderflow` on an empty
stack. -/
def Spec.discard (a : Spec) : SpecRun :=
  match a.openNames with
  | [] => .error (Fatal.StackUnderflow, a)
  | _ :: ns => .ok { a with openNames := ns }

/-- Close element: emit `</`, the stored name bytes, `>` and remove the record;
`StackUnderflow` on an empty stack. -/
def Spec.popName (a : Spec) : SpecRun :=
  match a.openNames with
  | [] => .error (Fatal.StackUnderflow, a)
  | N :: ns => .ok ({ a with openNames := ns }.emit ([60, 47] ++ N ++ [62]))

/-- One row of the transition table: current state, current byte and lookahead
give the action and the next state. -/
def Spec.step (a : Spec) (current next : Int) : SpecRun :=
  match a.state with
  | .ParsingStart =>
    if current = 40 then .ok a.beginCapture
    else .ok (a.emit [current])
  | .ParsingElementName =>
    if whitespace current then
      .ok { (a.emit [current]).pushName with state := estate.ParsingAttributes }
    else if current = 41 then do
      let a1 ← a.pushName.discard
      pure { a1.emit [32, 47, 62] with state := estate.ParsingText }
    else
      .ok { a.emit [current] with capture := a.capture ++ [current] }
  | .ParsingAttributes =>
    if current = 40 then .ok (a.emit [62]).beginCapture
    else if current = 41 then do
      let a1 ← a.discard
      pure { a1.emit [32, 47, 62] with state := estate.ParsingText }
    else if whitespace current then .ok (a.emit [current])
    else if current = 92 then
      if next = 92 ∨ next = 40 ∨ next = 41 then
        .ok { a.emit [62, current] with state := estate.ParsingText }
      else if whitespace next then
        .ok { a.emit [62] with state := estate.ParsingText }
      else
        .ok { a with state := estate.ParsingAttribute }
    else
      .ok { a.emit [62, current] with state := estate.ParsingText }
  | .ParsingAttribute =>
    if current = 61 then
      .ok { a.emit [current] with state := estate.ParsingAttributeValue, quote := none }
    else if current = 32 then
      .ok { a.emit [current] with state := estate.ParsingAttributes }
    else
      .ok (a.emit [current])
  | .ParsingAttributeValue =>
    match a.quote with
    | some q =>
      if current = q then .ok { a.emit [current] with state := estate.ParsingAttributes }
      else .ok (a.emit [current])
    | none =>
      if current = 34 ∨ current = 39 then .ok { a.emit [current] with quote := some current }
      else .ok (a.emit [current])
  | .ParsingText =>
    if current = 40 then .ok a.beginCapture
    else if current = 41 then a.popName
    else if current = 92 then .ok { a with state := estate.ParsingTextEscaped }
    else .ok (a.emit [current])
  | .ParsingTextEscaped =>
    if current = 40 ∨ current = 41 ∨ current = 92 ∨ whitespace current then
      .ok { a.emit [current] with state := estate.ParsingText }
    else
      .error (Fatal.IllegalEscapeSequence, a)

/-- The specification's translator over a segment of the input followed by the
byte `after`. -/
def Spec.run (a : Spec) (after : Int) : List Int → SpecRun
  | [] => .ok a
  | current :: rest => do
    let a1 ← a.step current (peekOr after rest)
    Spec.run a1 after rest

/-- The specification's translator from its initial state over the input `pre`
followed by `after`. -/
def Spec.reach (pre : List Int) (after : Int) : SpecRun :=
  Spec.run Spec.init after pre

/-- The abstract state at the end of a run of the specification's translator. -/
def Spec.final : SpecRun → Spec
  | .ok a => a
  | .error (_, a) => a

/-! ## The byte array as a stack of names -/

/-- The byte array `f`, below index `t`, is the concatenation of the records of
the names `ns` (most recent last in the array, first in the list): each record
is the bytes of the name, stored as `char`, followed by one byte holding their
number, which is at most 126. -/
def Decodes (f : Int → Int) : List (List Int) → Int → Prop
  | [], t => t = 0
  | N :: ns, t =>
    (N.length : Int) ≤ 126 ∧ ValidInput N ∧
    f (t - 1) = N.length ∧
    readBytes f (t - 1 - N.length) N.length = N.map toChar ∧
    Decodes f ns (t - 1 - N.length)

/-- The quote tracking that the variable `seenQuote` stands for. -/
def quoteOf (seenQuote : Int) : Option Int :=
  if seenQuote = 0 then none else some seenQuote

/-- The machine of the program refines the specification's translator: same
state, same output, same quote tracking, and the in-use part of the byte array
is the records of the open names, followed, in `ParsingElementName`, by the
`nameLen` bytes of the name being captured. -/
structure Refines (m : Machine) (a : Spec) : Prop where
  state : m.state = a.state
  out : m.stdout = a.out
  quote : a.quote = quoteOf m.seenQuote
  names :
    if m.state = estate.ParsingElementName then
      (a.capture.length : Int) = m.nameLen ∧ ValidInput a.capture ∧
      readBytes m.nameStack (m.nameStackTop - m.nameLen) a.capture.length
        = a.capture.map toChar ∧
      Decodes m.nameStack a.openNames (m.nameStackTop - m.nameLen)
    else
      Decodes m.nameStack a.openNames m.nameStackTop

/-- The stack array `f` after the bytes `l` have been stored, as `char`, from
index `i` on. -/
def writeBytes (f : Int → Int) (i : Int) : List Int → Int → Int
  | [] => f
  | b :: l => writeBytes (fun j => if j = i then toChar b else f j) (i + 1) l

/-! ## Counting opened and closed elements -/

/-- An element is opened when `(` is consumed in `ParsingStart`,
`ParsingAttributes` or `ParsingText`: the three calls of `start_element_name`. -/
def opensElement (s : estate) (current : Int) : Bool :=
  current == 40 &&
    (s == estate.ParsingStart || s == estate.ParsingAttributes || s == estate.ParsingText)

/-- An element is closed when `)` is consumed in `ParsingElementName` or
`ParsingAttributes` (self-close through `discard_name`) or in `ParsingText`
(closing tag through `pop_name`). -/
def closesElement (s : estate) (current : Int) : Bool :=
  current == 41 &&
    (s == estate.ParsingElementName || s == estate.ParsingAttributes || s == estate.ParsingText)

/-- Number of consumed bytes, along the loop of `main` from `m` over the unread
input, whose step succeeds and for which `p` holds of the state before the step
and of the byte. -/
def countSteps (p : estate → Int → Bool) (m : Machine) : List Int → Nat
  | [] => 0
  | current :: rest =>
    match step m current (peek rest) with
    | .error _ => 0
    | .ok m1 => (if p m.state current then 1 else 0) + countSteps p m1 rest

/-- Number of elements opened during the run of `main` on `stdin`. -/
def opened (stdin : List Int) : Nat := countSteps opensElement Machine.init stdin

/-- Number of elements closed during the run of `main` on `stdin`. -/
def closed (stdin : List Int) : Nat := countSteps closesElement Machine.init stdin

/-! ## Inputs built by repetition -/

/-- The segment `seg` written `k` times in a row. -/
def repeatSeg (seg : List Int) : Nat → List Int
  | 0 => []
  | k + 1 => seg ++ repeatSeg seg k

/-! ## Trees of elements -/

/-- A finite tree of elements: a name and the list of the children. -/
inductive Tree
  | node (name : List Int) (children : List Tree)

mutual
/-- The XBLY rendering of a tree: a leaf `n` is `(n)`; a node `n` with children is
`(n`, a space, the renderings of the children separated by single spaces, `)`. -/
def Tree.xbly : Tree → List Int
  | .node n [] => 40 :: n ++ [41]
  | .node n (c :: cs) => 40 :: n ++ 32 :: (c.xbly ++ (Tree.xblyMore cs ++ [41]))
/-- The XBLY renderings of further children, each after a single space. -/
def Tree.xblyMore : List Tree → List Int
  | [] => []
  | c :: cs => 32 :: (c.xbly ++ Tree.xblyMore cs)
end

mutual
/-- The XML rendering of a tree: a leaf `n` is `<n />`; a node `n` with children is
`<n >`, the renderings of the children separated by single spaces, `</n>`. -/
def Tree.xml : Tree → List Int
  | .node n [] => 60 :: n ++ [32, 47, 62]
  | .node n (c :: cs) =>
    60 :: n ++ 32 :: 62 :: (c.xml ++ (Tree.xmlMore cs ++ 60 :: 47 :: n ++ [62]))
/-- The XML renderings of further children, each after a single space. -/
def Tree.xmlMore : List Tree → List Int
  | [] => []
  | c :: cs => 32 :: (c.xml ++ Tree.xmlMore cs)
end

/-- An element name of a tree: 1 to 126 valid bytes, none of them whitespace,
`(`, `)` or `\`. -/
def nameOk (n : List Int) : Prop :=
  (1 ≤ n.length ∧ n.length ≤ 126) ∧ ValidInput n ∧
  ∀ b ∈ n, whitespace b = false ∧ b ≠ 40 ∧ b ≠ 41 ∧ b ≠ 92

instance (n : List Int) : Decidable (nameOk n) := by unfold nameOk; infer_instance

mutual
/-- With `used` bytes of the stack taken by the open ancestors, every name of the
tree is an element name and the records of the open names fit in the 16384
bytes of the stack along every path from the root. -/
def Tree.ok (used : Int) : Tree → Prop
  | .node n cs => nameOk n ∧ used + n.length + 1 ≤ 16384 ∧ Tree.okAll (used + n.length + 1) cs
/-- The same for every tree of a list of children. -/
def Tree.okAll (used : Int) : List Tree → Prop
  | [] => True
  | c :: cs => c.ok used ∧ Tree.okAll used cs
end

/-! ## Basic lemmas -/

theorem mainLoopSeg_cons (m : Machine) (after c : Int) (rest : List Int) :
    mainLoopSeg m after (c :: rest)
      = (step m c (peekOr after rest) >>= fun m1 => mainLoopSeg m1 after rest) := rfl

theorem mainLoop_cons (m : Machine) (c : Int) (rest : List Int) :
    mainLoop m (c :: rest) = (step m c (peek rest) >>= fun m1 => mainLoop m1 rest) := rfl

theorem peekOr_EOF (l : List Int) : peekOr EOF l = peek l := by
  cases l <;> rfl

theorem mainLoop_eq_seg (l : List Int) : ∀ m, mainLoop m l = mainLoopSeg m EOF l := by
  induction l with
  | nil => intro m; rfl
  | cons c rest ih =>
    intro m
    rw [mainLoop_cons, mainLoopSeg_cons, peekOr_EOF]
    cases h : step m c (peek rest) with
    | error e => rfl
    | ok m1 => exact ih m1

theorem peekOr_append_cons (l : List Int) (c : Int) (r : List Int) (after : Int) :
    peekOr after (l ++ c :: r) = peekOr c l := by
  cases l <;> rfl

theorem mainLoopSeg_append (l : List Int) (c : Int) (r : List Int) (after : Int) :
    ∀ m, mainLoopSeg m after (l ++ c :: r)
      = (mainLoopSeg m c l >>= fun m1 => mainLoopSeg m1 after (c :: r)) := by
  induction l with
  | nil => intro m; rfl
  | cons b rest ih =>
    intro m
    rw [List.cons_append, mainLoopSeg_cons, mainLoopSeg_cons, peekOr_append_cons]
    cases h : step m b (peekOr c rest) with
    | error e => rfl
    | ok m1 => exact ih m1

theorem toChar_mod (b : Int) (h : isByte b) : toChar b % 256 = b := by
  unfold toChar; unfold isByte at h; omega

theorem toChar_small (n : Int) (h0 : 0 ≤ n) (h1 : n ≤ 127) : toChar n = n := by
  unfold toChar; omega

theorem mod_byte (b : Int) (h : isByte b) : b % 256 = b := by
  unfold isByte at h; omega

theorem map_mod_valid (l : List Int) (h : ValidInput l) : l.map (fun b => b % 256) = l := by
  induction l with
  | nil => rfl
  | cons b r ih =>
    simp only [List.map_cons]
    rw [mod_byte b (h b (List.mem_cons_self b r)),
      ih (fun x hx => h x (List.mem_cons_of_mem b hx))]

theorem map_toChar_mod_valid (l : List Int) (h : ValidInput l) :
    (l.map toChar).map (fun b => b % 256) = l := by
  induction l with
  | nil => rfl
  | cons b r ih =>
    simp only [List.map_cons]
    rw [toChar_mod b (h b (List.mem_cons_self b r)),
      ih (fun x hx => h x (List.mem_cons_of_mem b hx))]

/-- The loop of `pop_name` writes the cells it walks over and changes nothing
else. -/
theorem pop_name_loop_eq (k : Nat) : ∀ (m : Machine) (i : Int),
    pop_name_loop m i k
      = { m with stdout := m.stdout ++ (readBytes m.nameStack i k).map (fun b => b % 256) } := by
  induction k with
  | zero => intro m i; simp [pop_name_loop, readBytes]
  | succ k ih =>
    intro m i
    rw [pop_name_loop, ih]
    simp [fputc, readBytes]

theorem push_cases (a : Int) (m : Machine) :
    (CHAR_MAX ≤ m.nameLen ∧ push a m = .error (Fatal.NameTooLong, m)) ∨
    (m.nameLen < CHAR_MAX ∧ NAMESTACKZ ≤ m.nameStackTop ∧
      push a m = .error (Fatal.StackOverflow, m)) ∨
    (m.nameLen < CHAR_MAX ∧ m.nameStackTop < NAMESTACKZ ∧
      push a m = .ok { m with
        nameLen := m.nameLen + 1
        nameStack := fun i => if i = m.nameStackTop then toChar a else m.nameStack i
        nameStackTop := m.nameStackTop + 1 }) := by
  unfold push
  by_cases h1 : m.nameLen ≥ CHAR_MAX
  · left; simp [h1]
  · by_cases h2 : m.nameStackTop ≥ NAMESTACKZ
    · right; left; simp [h1, h2]; omega
    · right; right; simp [h1, h2]; omega

theorem push_final (a : Int) (m : Machine) :
    (final (push a m)).stdout = m.stdout ∧ (final (push a m)).state = m.state ∧
    (final (push a m)).seenQuote = m.seenQuote := by
  rcases push_cases a m with ⟨_, h⟩ | ⟨_, _, h⟩ | ⟨_, _, h⟩ <;> rw [h] <;> simp [final]

theorem discard_name_final (m : Machine) :
    (final (discard_name m)).stdout = m.stdout ∧ (final (discard_name m)).state = m.state ∧
    (final (discard_name m)).seenQuote = m.seenQuote := by
  unfold discard_name
  split <;> simp [final]

theorem pop_name_stdout (m : Machine) :
    ∃ t, (final (pop_name m)).stdout = m.stdout ++ t := by
  unfold pop_name
  split
  · exact ⟨[], by simp [final]⟩
  · simp only [final, pop_name_loop_eq, fputc]
    exact ⟨_, by simp only [List.append_assoc]; rfl⟩

theorem final_bind_stdout (x : Run) (f : Machine → Run) (s : List Int)
    (hx : ∃ t, (final x).stdout = s ++ t)
    (hf : ∀ m1, x = .ok m1 → ∃ t, (final (f m1)).stdout = m1.stdout ++ t) :
    ∃ t, (final (x >>= f)).stdout = s ++ t := by
  cases x with
  | error e => exact hx
  | ok m1 =>
    obtain ⟨t, ht⟩ := hx
    obtain ⟨u, hu⟩ := hf m1 rfl
    refine ⟨t ++ u, ?_⟩
    show (final (f m1)).stdout = s ++ (t ++ u)
    rw [hu, ← List.append_assoc, ← ht]
    rfl

/-- Every step only appends to `stdout`, in success and in failure. -/
theorem step_stdout (m : Machine) (c n : Int) :
    ∃ t, (final (step m c n)).stdout = m.stdout ++ t := by
  unfold step
  split
  · split <;> simp [final, start_element_name, fputc]
  · split
    · refine final_bind_stdout _ _ _ ⟨[c % 256], ?_⟩ ?_
      · rw [(push_final _ _).1]; rfl
      · intro m1 _; exact ⟨[], by simp [final, pure, Except.pure]⟩
    · split
      · refine final_bind_stdout _ _ _ ⟨[], ?_⟩ ?_
        · rw [(push_final _ _).1]; simp
        · intro m1 _
          refine final_bind_stdout _ _ _ ⟨[], ?_⟩ ?_
          · rw [(discard_name_final _).1]; simp
          · intro m2 _; exact ⟨[32, 47, 62], by simp [final, pure, Except.pure, fputs]⟩
      · exact ⟨[c % 256], by rw [(push_final _ _).1]; rfl⟩
  · split
    · simp [final, start_element_name, fputc]
    · split
      · refine final_bind_stdout _ _ _ ⟨[], ?_⟩ ?_
        · rw [(discard_name_final _).1]; simp
        · intro m2 _; exact ⟨[32, 47, 62], by simp [final, pure, Except.pure, fputs]⟩
      · split
        · simp [final, fputc]
        · split
          · split
            · simp [final, fputc]
            · split
              · simp [final, fputc]
              · exact ⟨[], by simp [final]⟩
          · simp [final, fputc]
  · simp only []
    split
    · simp [final, fputc]
    · split <;> simp [final, fputc]
  · simp only []
    split
    · split <;> simp [final, fputc]
    · split <;> simp [final, fputc]
  · split
    · simp [final, start_element_name, fputc]
    · split
      · exact pop_name_stdout m
      · split
        · exact ⟨[], by simp [final]⟩
        · simp [final, fputc]
  · split
    · simp [final, fputc]
    · exact ⟨[], by simp [final]⟩

theorem mainLoopSeg_stdout (l : List Int) (after : Int) :
    ∀ m, ∃ t, (final (mainLoopSeg m after l)).stdout = m.stdout ++ t := by
  induction l with
  | nil => intro m; exact ⟨[], by simp [mainLoopSeg, final]⟩
  | cons c rest ih =>
    intro m
    rw [mainLoopSeg_cons]
    exact final_bind_stdout _ _ _ (step_stdout m c _) (fun m1 _ => ih m1)

theorem written_eq_final (r : Run) : written r = (final r).stdout := by
  cases r with
  | error e => rfl
  | ok m => rfl

/-- The check at the end of `main` writes nothing. -/
theorem written_main (l : List Int) : written (main l) = written (mainLoop Machine.init l) := by
  unfold main
  cases h : mainLoop Machine.init l with
  | error e => rfl
  | ok m =>
    show written (if m.nameStackTop ≠ 0 then _ else _) = _
    split <;> rfl

theorem ok_bind (m : Machine) (f : Machine → Run) : ((Except.ok m : Run) >>= f) = f m := rfl

theorem error_bind (e : Fatal × Machine) (f : Machine → Run) :
    ((Except.error e : Run) >>= f) = Except.error e := rfl

/-! ### The `ParsingStart` state -/

/-- In `ParsingStart`, a segment without `(` is copied to `stdout` and nothing
else changes. -/
theorem start_copies (l : List Int) (after : Int) :
    ∀ m : Machine, m.state = estate.ParsingStart → (40 : Int) ∉ l →
      mainLoopSeg m after l
        = .ok { m with stdout := m.stdout ++ l.map (fun b => b % 256) } := by
  induction l with
  | nil => intro m _ _; simp [mainLoopSeg]
  | cons c rest ih =>
    intro m hs hl
    have hc : c ≠ 40 := fun h => hl (by simp [h])
    have hr : (40 : Int) ∉ rest := fun h => hl (List.mem_cons_of_mem c h)
    have hstep : step m c (peekOr after rest) = .ok (fputc c m) := by
      simp [step, hs, hc]
    rw [mainLoopSeg_cons, hstep]
    show mainLoopSeg (fputc c m) after rest = _
    rw [ih (fputc c m) hs hr]
    simp [fputc]

theorem step_start_open (m : Machine) (n : Int) (hs : m.state = estate.ParsingStart) :
    step m 40 n = .ok (start_element_name m) := by
  simp [step, hs]

/-! ### The byte array as a stack of names -/

theorem readBytes_congr (f g : Int → Int) (k : Nat) : ∀ i : Int,
    (∀ j, i ≤ j → j < i + k → g j = f j) → readBytes g i k = readBytes f i k := by
  induction k with
  | zero => intro i _; rfl
  | succ k ih =>
    intro i h
    simp only [readBytes]
    rw [h i (le_refl i) (by push_cast; omega),
      ih (i + 1) (fun j h1 h2 => h j (by omega) (by push_cast; omega))]

theorem readBytes_snoc (f : Int → Int) (k : Nat) : ∀ i : Int,
    readBytes f i (k + 1) = readBytes f i k ++ [f (i + k)] := by
  induction k with
  | zero => intro i; simp [readBytes]
  | succ k ih =>
    intro i
    rw [readBytes, ih (i + 1)]
    simp only [readBytes, List.cons_append]
    have : i + 1 + (k : Int) = i + ((k + 1 : Nat) : Int) := by push_cast; omega
    rw [this]

theorem readBytes_length (f : Int → Int) (k : Nat) : ∀ i : Int, (readBytes f i k).length = k := by
  induction k with
  | zero => intro i; rfl
  | succ k ih => intro i; simp [readBytes, ih]

theorem Decodes_nonneg (f : Int → Int) (ns : List (List Int)) : ∀ t, Decodes f ns t → 0 ≤ t := by
  induction ns with
  | nil => intro t h; simp only [Decodes] at h; omega
  | cons N ns ih =>
    intro t h
    simp only [Decodes] at h
    have := ih _ h.2.2.2.2
    omega

/-- Frame rule: the decoding below `t` looks at no cell at or above `t`. -/
theorem Decodes_congr (f g : Int → Int) (ns : List (List Int)) : ∀ t,
    (∀ j, j < t → g j = f j) → Decodes f ns t → Decodes g ns t := by
  induction ns with
  | nil => intro t _ h; exact h
  | cons N ns ih =>
    intro t hfg h
    simp only [Decodes] at h ⊢
    obtain ⟨h1, h2, h3, h4, h5⟩ := h
    refine ⟨h1, h2, ?_, ?_, ?_⟩
    · rw [hfg _ (by omega)]; exact h3
    · rw [readBytes_congr f g _ _ (fun j _ hj => hfg j (by omega))]; exact h4
    · exact ih _ (fun j hj => hfg j (by omega)) h5

theorem Decodes_top_zero (f : Int → Int) (ns : List (List Int)) (h : Decodes f ns 0) : ns = [] := by
  cases ns with
  | nil => rfl
  | cons N ns =>
    simp only [Decodes] at h
    have := Decodes_nonneg f ns _ h.2.2.2.2
    omega

/-! ### One step of the program refines one step of the specification -/

theorem quoteOf_zero : quoteOf 0 = none := rfl

/-- A step between two states other than `ParsingElementName` that leaves the
stack alone keeps the refinement. -/
theorem Refines.same_stack {m m1 : Machine} {a a1 : Spec} (hR : Refines m a)
    (hne : m.state ≠ estate.ParsingElementName)
    (hs : m1.state = a1.state) (hne1 : m1.state ≠ estate.ParsingElementName)
    (hout : m1.stdout = a1.out) (hq : a1.quote = quoteOf m1.seenQuote)
    (hstk : m1.nameStack = m.nameStack) (htop : m1.nameStackTop = m.nameStackTop)
    (hopen : a1.openNames = a.openNames) : Refines m1 a1 := by
  refine ⟨hs, hout, hq, ?_⟩
  have hn := hR.names
  rw [if_neg hne] at hn
  rw [if_neg hne1, hstk, htop, hopen]
  exact hn

/-- Opening an element from a state other than `ParsingElementName` keeps the
refinement: the capture starts empty on top of the open names. -/
theorem Refines.begin_capture {m m1 : Machine} {a a1 : Spec} (hR : Refines m a)
    (hne : m.state ≠ estate.ParsingElementName)
    (hs : m1.state = estate.ParsingElementName) (hs1 : a1.state = estate.ParsingElementName)
    (hout : m1.stdout = a1.out) (hq : a1.quote = quoteOf m1.seenQuote)
    (hstk : m1.nameStack = m.nameStack) (htop : m1.nameStackTop = m.nameStackTop)
    (hlen : m1.nameLen = 0) (hcap : a1.capture = [])
    (hopen : a1.openNames = a.openNames) : Refines m1 a1 := by
  refine ⟨by rw [hs, hs1], hout, hq, ?_⟩
  have hn := hR.names
  rw [if_neg hne] at hn
  rw [if_pos hs, hstk, htop, hopen, hlen, hcap]
  refine ⟨rfl, ?_, rfl, ?_⟩
  · intro b hb; cases hb
  · rw [sub_zero]; exact hn

theorem sim_step_start {m : Machine} {a : Spec} (c n : Int) (hR : Refines m a)
    (hc : isByte c) (hs : m.state = estate.ParsingStart) {m1 : Machine}
    (h : step m c n = .ok m1) : ∃ a1, a.step c n = .ok a1 ∧ Refines m1 a1 := by
  have hsa : a.state = estate.ParsingStart := by rw [← hR.state, hs]
  have hne : m.state ≠ estate.ParsingElementName := by rw [hs]; decide
  simp only [step, hs] at h
  simp only [Spec.step, hsa]
  split_ifs at h ⊢ with h40
  · injection h with h; subst h
    exact ⟨_, rfl, hR.begin_capture hne rfl rfl
      (by simp [start_element_name, fputc, Spec.beginCapture, Spec.emit, hR.out])
      hR.quote rfl rfl rfl rfl rfl⟩
  · injection h with h; subst h
    exact ⟨_, rfl, hR.same_stack hne (by simp [fputc, Spec.emit, hs, hsa])
      (by simp [fputc, hs]) (by simp [fputc, Spec.emit, hR.out, mod_byte c hc])
      hR.quote rfl rfl rfl⟩


theorem sim_step_attribute {m : Machine} {a : Spec} (c n : Int) (hR : Refines m a)
    (hc : isByte c) (hs : m.state = estate.ParsingAttribute) {m1 : Machine}
    (h : step m c n = .ok m1) : ∃ a1, a.step c n = .ok a1 ∧ Refines m1 a1 := by
  have hsa : a.state = estate.ParsingAttribute := by rw [← hR.state, hs]
  have hne : m.state ≠ estate.ParsingElementName := by rw [hs]; decide
  simp only [step, hs] at h
  simp only [Spec.step, hsa]
  split_ifs at h ⊢ with h1 h2
  · injection h with h; subst h
    exact ⟨_, rfl, hR.same_stack hne rfl (by simp)
      (by simp [fputc, Spec.emit, hR.out, mod_byte c hc]) rfl rfl rfl rfl⟩
  · injection h with h; subst h
    exact ⟨_, rfl, hR.same_stack hne rfl (by simp)
      (by simp [fputc, Spec.emit, hR.out, mod_byte c hc]) hR.quote rfl rfl rfl⟩
  · injection h with h; subst h
    exact ⟨_, rfl, hR.same_stack hne (by simp [fputc, Spec.emit, hs, hsa])
      (by simp [fputc, hs]) (by simp [fputc, Spec.emit, hR.out, mod_byte c hc])
      hR.quote rfl rfl rfl⟩

theorem sim_step_value {m : Machine} {a : Spec} (c n : Int) (hR : Refines m a)
    (hc : isByte c) (hs : m.state = estate.ParsingAttributeValue) {m1 : Machine}
    (h : step m c n = .ok m1) : ∃ a1, a.step c n = .ok a1 ∧ Refines m1 a1 := by
  have hsa : a.state = estate.ParsingAttributeValue := by rw [← hR.state, hs]
  have hne : m.state ≠ estate.ParsingElementName := by rw [hs]; decide
  have hq := hR.quote
  simp only [step, hs, fputc] at h
  simp only [Spec.step, hsa]
  by_cases hz : m.seenQuote = 0
  · have hqa : a.quote = none := by rw [hq, hz]; rfl
    rw [hqa]
    simp only [hz, ne_eq, not_true_eq_false, if_false] at h
    split_ifs at h ⊢ with h1
    · injection h with h; subst h
      refine ⟨_, rfl, hR.same_stack hne (by simp [Spec.emit, hs, hsa])
        (by simp [hs]) (by simp [Spec.emit, hR.out, mod_byte c hc]) ?_ rfl rfl rfl⟩
      have : c ≠ 0 := by rcases h1 with h | h <;> omega
      simp [quoteOf, this]
    · injection h with h; subst h
      exact ⟨_, rfl, hR.same_stack hne (by simp [Spec.emit, hs, hsa])
        (by simp [hs]) (by simp [Spec.emit, hR.out, mod_byte c hc])
        (by simp [Spec.emit, hqa, hz, quoteOf]) rfl rfl rfl⟩
  · have hqa : a.quote = some m.seenQuote := by rw [hq]; simp [quoteOf, hz]
    rw [hqa]
    simp only [ne_eq, hz, not_false_eq_true, if_true] at h
    simp only []
    split_ifs at h ⊢ with h1
    · injection h with h; subst h
      exact ⟨_, rfl, hR.same_stack hne rfl (by simp)
        (by simp [Spec.emit, hR.out, mod_byte c hc])
        (by simp [Spec.emit, hqa, hz, quoteOf]) rfl rfl rfl⟩
    · injection h with h; subst h
      exact ⟨_, rfl, hR.same_stack hne (by simp [Spec.emit, hs, hsa])
        (by simp [hs]) (by simp [Spec.emit, hR.out, mod_byte c hc])
        (by simp [Spec.emit, hqa, hz, quoteOf]) rfl rfl rfl⟩

theorem sim_step_escaped {m : Machine} {a : Spec} (c n : Int) (hR : Refines m a)
    (hc : isByte c) (hs : m.state = estate.ParsingTextEscaped) {m1 : Machine}
    (h : step m c n = .ok m1) : ∃ a1, a.step c n = .ok a1 ∧ Refines m1 a1 := by
  have hsa : a.state = estate.ParsingTextEscaped := by rw [← hR.state, hs]
  have hne : m.state ≠ estate.ParsingElementName := by rw [hs]; decide
  simp only [step, hs] at h
  simp only [Spec.step, hsa]
  split_ifs at h ⊢ with h1
  · injection h with h; subst h
    exact ⟨_, rfl, hR.same_stack hne rfl (by simp)
      (by simp [fputc, Spec.emit, hR.out, mod_byte c hc]) hR.quote rfl rfl rfl⟩


theorem discard_name_ok {m m1 : Machine} (h : discard_name m = .ok m1) :
    0 < m.nameStackTop ∧
    m1 = { m with nameStackTop := m.nameStackTop - m.nameStack (m.nameStackTop - 1) - 1 } := by
  unfold discard_name at h
  split_ifs at h with h0
  injection h with h
  exact ⟨by omega, h.symm⟩

theorem pop_name_ok {m m1 : Machine} (h : pop_name m = .ok m1) :
    0 < m.nameStackTop ∧
    m1 = { m with
      stdout := m.stdout ++ [60, 47] ++
        (readBytes m.nameStack (m.nameStackTop - m.nameStack (m.nameStackTop - 1) - 1)
          ((m.nameStackTop - 1)
            - (m.nameStackTop - m.nameStack (m.nameStackTop - 1) - 1)).toNat).map
          (fun b => b % 256) ++ [62]
      nameStackTop := m.nameStackTop - m.nameStack (m.nameStackTop - 1) - 1 } := by
  unfold pop_name at h
  split_ifs at h with h0
  injection h with h
  refine ⟨by omega, ?_⟩
  rw [← h]
  simp [pop_name_loop_eq, fputc]

theorem push_ok {a : Int} {m m1 : Machine} (h : push a m = .ok m1) :
    m.nameLen < CHAR_MAX ∧ m.nameStackTop < NAMESTACKZ ∧
    m1 = { m with
      nameLen := m.nameLen + 1
      nameStack := fun i => if i = m.nameStackTop then toChar a else m.nameStack i
      nameStackTop := m.nameStackTop + 1 } := by
  rcases push_cases a m with ⟨_, h1⟩ | ⟨_, _, h1⟩ | ⟨h1, h2, h3⟩
  · rw [h1] at h; cases h
  · rw [h1] at h; cases h
  · rw [h3] at h; injection h with h; exact ⟨h1, h2, h.symm⟩

theorem bind_ok {x : Run} {f : Machine → Run} {m1 : Machine} (h : (x >>= f) = .ok m1) :
    ∃ m0, x = .ok m0 ∧ f m0 = .ok m1 := by
  cases x with
  | error e => cases h
  | ok m0 => exact ⟨m0, rfl, h⟩

/-- With a record on top of the decoded stack, the cell below the top holds
its length and the cells before it hold its name. -/
theorem Decodes_top {f : Int → Int} {ns : List (List Int)} {t : Int}
    (h : Decodes f ns t) (ht : 0 < t) :
    ∃ N rest, ns = N :: rest ∧ ValidInput N ∧ f (t - 1) = N.length ∧
      readBytes f (t - f (t - 1) - 1) N.length = N.map toChar ∧
      Decodes f rest (t - f (t - 1) - 1) := by
  cases ns with
  | nil => simp only [Decodes] at h; omega
  | cons N rest =>
    simp only [Decodes] at h
    obtain ⟨_, h2, h3, h4, h5⟩ := h
    have e : t - f (t - 1) - 1 = t - 1 - N.length := by rw [h3]; omega
    exact ⟨N, rest, rfl, h2, h3, by rw [e]; exact h4, by rw [e]; exact h5⟩

theorem sim_step_attributes {m : Machine} {a : Spec} (c n : Int) (hR : Refines m a)
    (hc : isByte c) (hs : m.state = estate.ParsingAttributes) {m1 : Machine}
    (h : step m c n = .ok m1) : ∃ a1, a.step c n = .ok a1 ∧ Refines m1 a1 := by
  have hsa : a.state = estate.ParsingAttributes := by rw [← hR.state, hs]
  have hne : m.state ≠ estate.ParsingElementName := by rw [hs]; decide
  simp only [step, hs] at h
  simp only [Spec.step, hsa]
  split_ifs at h ⊢ with h1 h2 h3 h4 h5 h6
  · injection h with h; subst h
    exact ⟨_, rfl, hR.begin_capture hne rfl rfl
      (by simp [start_element_name, fputc, Spec.beginCapture, Spec.emit, hR.out])
      hR.quote rfl rfl rfl rfl rfl⟩
  · obtain ⟨m0, hd, hp⟩ := bind_ok h
    obtain ⟨htop, hm0⟩ := discard_name_ok hd
    injection hp with hp
    subst hp hm0
    have hn := hR.names
    rw [if_neg hne] at hn
    obtain ⟨N, rest, hopen, _, _, _, hdec⟩ := Decodes_top hn htop
    refine ⟨{ ({ a with openNames := rest } : Spec).emit [32, 47, 62] with
      state := estate.ParsingText }, by simp [Spec.discard, hopen, bind, Except.bind, pure,
        Except.pure], ?_⟩
    refine ⟨rfl, by simp [fputs, Spec.emit, hR.out], hR.quote, ?_⟩
    simpa [fputs, Spec.emit] using hdec
  · injection h with h; subst h
    exact ⟨_, rfl, hR.same_stack hne (by simp [fputc, Spec.emit, hs, hsa])
      (by simp [fputc, hs]) (by simp [fputc, Spec.emit, hR.out, mod_byte c hc])
      hR.quote rfl rfl rfl⟩
  · injection h with h; subst h
    exact ⟨_, rfl, hR.same_stack hne rfl (by simp)
      (by simp [fputc, Spec.emit, hR.out, mod_byte c hc]) hR.quote rfl rfl rfl⟩
  · injection h with h; subst h
    exact ⟨_, rfl, hR.same_stack hne rfl (by simp)
      (by simp [fputc, Spec.emit, hR.out]) hR.quote rfl rfl rfl⟩
  · injection h with h; subst h
    exact ⟨_, rfl, hR.same_stack hne rfl (by simp)
      hR.out hR.quote rfl rfl rfl⟩
  · injection h with h; subst h
    exact ⟨_, rfl, hR.same_stack hne rfl (by simp)
      (by simp [fputc, Spec.emit, hR.out, mod_byte c hc]) hR.quote rfl rfl rfl⟩

theorem sim_step_text {m : Machine} {a : Spec} (c n : Int) (hR : Refines m a)
    (hc : isByte c) (hs : m.state = estate.ParsingText) {m1 : Machine}
    (h : step m c n = .ok m1) : ∃ a1, a.step c n = .ok a1 ∧ Refines m1 a1 := by
  have hsa : a.state = estate.ParsingText := by rw [← hR.state, hs]
  have hne : m.state ≠ estate.ParsingElementName := by rw [hs]; decide
  simp only [step, hs] at h
  simp only [Spec.step, hsa]
  split_ifs at h ⊢ with h1 h2 h3
  · injection h with h; subst h
    exact ⟨_, rfl, hR.begin_capture hne rfl rfl
      (by simp [start_element_name, fputc, Spec.beginCapture, Spec.emit, hR.out])
      hR.quote rfl rfl rfl rfl rfl⟩
  · obtain ⟨htop, hm1⟩ := pop_name_ok h
    subst hm1
    have hn := hR.names
    rw [if_neg hne] at hn
    obtain ⟨N, rest, hopen, hv, hlen, hrd, hdec⟩ := Decodes_top hn htop
    have hk : ((m.nameStackTop - 1)
        - (m.nameStackTop - m.nameStack (m.nameStackTop - 1) - 1)).toNat = N.length := by
      rw [hlen]; omega
    refine ⟨({ a with openNames := rest } : Spec).emit ([60, 47] ++ N ++ [62]),
      by simp [Spec.popName, hopen], ?_⟩
    refine ⟨by simp [Spec.emit, hs, hsa], ?_, hR.quote, ?_⟩
    · simp only [hk, hrd, map_toChar_mod_valid N hv, Spec.emit, hR.out, List.append_assoc]
    · simpa [Spec.emit, hs] using hdec
  · injection h with h; subst h
    exact ⟨_, rfl, hR.same_stack hne rfl (by simp) hR.out hR.quote rfl rfl rfl⟩
  · injection h with h; subst h
    exact ⟨_, rfl, hR.same_stack hne (by simp [fputc, Spec.emit, hs, hsa])
      (by simp [fputc, hs]) (by simp [fputc, Spec.emit, hR.out, mod_byte c hc])
      hR.quote rfl rfl rfl⟩


theorem sim_step_name {m : Machine} {a : Spec} (c n : Int) (hR : Refines m a)
    (hc : isByte c) (hs : m.state = estate.ParsingElementName) {m1 : Machine}
    (h : step m c n = .ok m1) : ∃ a1, a.step c n = .ok a1 ∧ Refines m1 a1 := by
  have hsa : a.state = estate.ParsingElementName := by rw [← hR.state, hs]
  have hn := hR.names
  rw [if_pos hs] at hn
  obtain ⟨hlen, hv, hrd, hdec⟩ := hn
  have hbase := Decodes_nonneg _ _ _ hdec
  simp only [step, hs] at h
  simp only [Spec.step, hsa]
  split_ifs at h ⊢ with h1 h2
  · -- whitespace: the captured name becomes a record
    obtain ⟨m0, hp, hm1⟩ := bind_ok h
    obtain ⟨hl, ht, hm0⟩ := push_ok hp
    injection hm1 with hm1
    subst hm1 hm0
    simp only [fputc, CHAR_MAX] at hl ht ⊢
    refine ⟨_, rfl, rfl, by simp [Spec.emit, Spec.pushName, hR.out, mod_byte c hc],
      hR.quote, ?_⟩
    simp only [Spec.emit, Spec.pushName, Decodes, add_sub_cancel_right, if_true]
    have hfr : ∀ j, j < m.nameStackTop →
        (fun i => if i = m.nameStackTop then toChar m.nameLen else m.nameStack i) j
          = m.nameStack j := by
      intro j hj
      simp only []
      rw [if_neg (by omega)]
    refine ⟨by omega, hv, ?_, ?_, ?_⟩
    · rw [toChar_small _ (by omega) (by omega), hlen]
    · rw [hlen, readBytes_congr m.nameStack _ _ _ (fun j _ hj => hfr j (by omega))]
      exact hrd
    · rw [hlen]
      exact Decodes_congr m.nameStack _ _ _ (fun j hj => hfr j (by omega)) hdec
  · -- `)`: the record is pushed and discarded
    obtain ⟨m0, hp, hm1⟩ := bind_ok h
    obtain ⟨hl, ht, hm0⟩ := push_ok hp
    obtain ⟨m2, hd, hm2⟩ := bind_ok hm1
    obtain ⟨_, hm2'⟩ := discard_name_ok hd
    injection hm2 with hm2
    subst hm2 hm2' hm0
    simp only [CHAR_MAX] at hl
    refine ⟨{ a.emit [32, 47, 62] with state := estate.ParsingText },
      by simp [Spec.pushName, Spec.discard, Spec.emit, bind, Except.bind, pure, Except.pure],
      rfl, by simp [fputs, Spec.emit, hR.out], hR.quote, ?_⟩
    simp only [fputs, Spec.emit, add_sub_cancel_right, if_true]
    rw [toChar_small _ (by omega) (by omega)]
    have e : m.nameStackTop + 1 - m.nameLen - 1 = m.nameStackTop - m.nameLen := by omega
    rw [e]
    exact Decodes_congr m.nameStack _ _ _
      (fun j hj => if_neg (by omega)) hdec
  · -- any other byte is appended to the name
    obtain ⟨hl, ht, hm0⟩ := push_ok h
    subst hm0
    simp only [fputc, CHAR_MAX] at hl ht ⊢
    refine ⟨_, rfl, by simp [Spec.emit, hs, hsa],
      by simp [Spec.emit, hR.out, mod_byte c hc], hR.quote, ?_⟩
    simp only [hs, Spec.emit, if_true, List.length_append, List.length_singleton]
    have e : m.nameStackTop + 1 - (m.nameLen + 1) = m.nameStackTop - m.nameLen := by omega
    have hfr : ∀ j, j < m.nameStackTop →
        (fun i => if i = m.nameStackTop then toChar c else m.nameStack i) j
          = m.nameStack j := by
      intro j hj
      simp only []
      rw [if_neg (by omega)]
    rw [e]
    refine ⟨by push_cast; omega, ?_, ?_, ?_⟩
    · intro b hb
      rcases List.mem_append.1 hb with hb | hb
      · exact hv b hb
      · rw [List.mem_singleton.1 hb]; exact hc
    · rw [readBytes_snoc, readBytes_congr m.nameStack _ _ _ (fun j _ hj => hfr j (by omega)),
        hrd, List.map_append]
      have e2 : m.nameStackTop - m.nameLen + (a.capture.length : Int) = m.nameStackTop := by
        omega
      simp [e2]
    · exact Decodes_congr m.nameStack _ _ _ (fun j hj => hfr j (by omega)) hdec

/-- One step of the program, on a byte, is matched by one step of the
specification's translator, and the refinement is kept. -/
theorem sim_step {m : Machine} {a : Spec} (c n : Int) (hR : Refines m a)
    (hc : isByte c) {m1 : Machine} (h : step m c n = .ok m1) :
    ∃ a1, a.step c n = .ok a1 ∧ Refines m1 a1 := by
  cases hs : m.state with
  | ParsingStart => exact sim_step_start c n hR hc hs h
  | ParsingElementName => exact sim_step_name c n hR hc hs h
  | ParsingAttributes => exact sim_step_attributes c n hR hc hs h
  | ParsingAttribute => exact sim_step_attribute c n hR hc hs h
  | ParsingAttributeValue => exact sim_step_value c n hR hc hs h
  | ParsingText => exact sim_step_text c n hR hc hs h
  | ParsingTextEscaped => exact sim_step_escaped c n hR hc hs h

theorem Refines.init : Refines Machine.init Spec.init :=
  ⟨rfl, rfl, rfl, by simp [Machine.init, Spec.init, Decodes]⟩

/-- A run of the program over a segment of valid bytes that does not fail is
matched by the run of the specification's translator, and the refinement is
kept. -/
theorem sim_run (l : List Int) (after : Int) : ∀ (m : Machine) (a : Spec),
    Refines m a → ValidInput l → ∀ m1, mainLoopSeg m after l = .ok m1 →
      ∃ a1, Spec.run a after l = .ok a1 ∧ Refines m1 a1 := by
  induction l with
  | nil =>
    intro m a hR _ m1 h
    injection h with h
    subst h
    exact ⟨a, rfl, hR⟩
  | cons c rest ih =>
    intro m a hR hv m1 h
    rw [mainLoopSeg_cons] at h
    obtain ⟨m0, h0, h1⟩ := bind_ok h
    obtain ⟨a0, ha0, hR0⟩ := sim_step c _ hR (hv c (List.mem_cons_self c rest)) h0
    obtain ⟨a1, ha1, hR1⟩ := ih m0 a0 hR0 (fun b hb => hv b (List.mem_cons_of_mem c hb)) m1 h1
    refine ⟨a1, ?_, hR1⟩
    show (a.step c (peekOr after rest) >>= fun a1 => Spec.run a1 after rest) = _
    rw [ha0]
    exact ha1

theorem pop_name_eq (m : Machine) (h : 0 < m.nameStackTop) :
    pop_name m = .ok { m with
      stdout := m.stdout ++ [60, 47] ++
        (readBytes m.nameStack (m.nameStackTop - m.nameStack (m.nameStackTop - 1) - 1)
          ((m.nameStackTop - 1)
            - (m.nameStackTop - m.nameStack (m.nameStackTop - 1) - 1)).toNat).map
          (fun b => b % 256) ++ [62]
      nameStackTop := m.nameStackTop - m.nameStack (m.nameStackTop - 1) - 1 } := by
  unfold pop_name
  rw [if_neg (by omega)]
  simp [pop_name_loop_eq, fputc]

theorem Refines.top_nonneg {m : Machine} {a : Spec} (hR : Refines m a) :
    0 ≤ m.nameStackTop := by
  have hn := hR.names
  split_ifs at hn
  · have := Decodes_nonneg _ _ _ hn.2.2.2
    have := hn.1
    omega
  · exact Decodes_nonneg _ _ _ hn

theorem ok_of_failure_none {r : Run} (h : failure r = none) : r = .ok (final r) := by
  cases r with
  | error e => cases h
  | ok m => rfl

/-- Every machine the program reaches on valid bytes refines the state the
specification's translator reaches on the same bytes. -/
theorem reach_refines (pre : List Int) (after : Int) (hv : ValidInput pre)
    (hrun : failure (reach pre after) = none) :
    ∃ a, Spec.reach pre after = .ok a ∧ Refines (final (reach pre after)) a :=
  sim_run pre after Machine.init Spec.init Refines.init hv _ (ok_of_failure_none hrun)

/-! ### Capturing an element name -/

theorem push_eq (a : Int) (m : Machine) (h1 : m.nameLen < 127) (h2 : m.nameStackTop < 16384) :
    push a m = .ok { m with
      nameLen := m.nameLen + 1
      nameStack := fun i => if i = m.nameStackTop then toChar a else m.nameStack i
      nameStackTop := m.nameStackTop + 1 } := by
  unfold push
  rw [if_neg (by unfold CHAR_MAX; omega), if_neg (by unfold NAMESTACKZ; omega)]

/-- In `ParsingElementName`, a segment of bytes that are neither whitespace nor
`)` is written to `stdout` and stored on the stack, as long as the name stays
below `CHAR_MAX` bytes and the stack has room. -/
theorem name_capture (name : List Int) (after : Int) : ∀ m : Machine,
    m.state = estate.ParsingElementName →
    (∀ b ∈ name, whitespace b = false ∧ b ≠ 41) →
    m.nameLen + name.length ≤ 127 → m.nameStackTop + name.length ≤ 16384 →
    mainLoopSeg m after name = .ok { m with
      nameLen := m.nameLen + name.length
      nameStack := writeBytes m.nameStack m.nameStackTop name
      nameStackTop := m.nameStackTop + name.length
      stdout := m.stdout ++ name.map (fun b => b % 256) } := by
  induction name with
  | nil => intro m _ _ _ _; simp [mainLoopSeg, writeBytes]
  | cons c rest ih =>
    intro m hs hname hlen htop
    have hc := hname c (List.mem_cons_self c rest)
    simp only [List.length_cons, Nat.cast_add, Nat.cast_one] at hlen htop
    have hstep : step m c (peekOr after rest) = .ok { m with
        nameLen := m.nameLen + 1
        nameStack := fun i => if i = m.nameStackTop then toChar c else m.nameStack i
        nameStackTop := m.nameStackTop + 1
        stdout := m.stdout ++ [c % 256] } := by
      simp only [step, hs, hc.1, hc.2, if_false, Bool.false_eq_true]
      rw [push_eq c (fputc c m) (by simp only [fputc]; omega) (by simp only [fputc]; omega)]
      simp [fputc, hs]
    rw [mainLoopSeg_cons, hstep, ok_bind,
      ih { m with
        nameLen := m.nameLen + 1
        nameStack := fun i => if i = m.nameStackTop then toChar c else m.nameStack i
        nameStackTop := m.nameStackTop + 1
        stdout := m.stdout ++ [c % 256] } hs
        (fun b hb => hname b (List.mem_cons_of_mem c hb)) (by simp only []; omega)
        (by simp only []; omega)]
    simp only [writeBytes, List.map_cons, List.length_cons, Nat.cast_add, Nat.cast_one,
      List.append_assoc, List.singleton_append]
    congr 2 <;> omega


/-- In `ParsingElementName`, `)` pushes the length of the captured name, discards
the record just completed and writes ` />`. -/
theorem step_name_close (m : Machine) (n : Int) (hs : m.state = estate.ParsingElementName)
    (h0 : 0 ≤ m.nameLen) (h1 : m.nameLen < 127)
    (h2 : 0 ≤ m.nameStackTop) (h3 : m.nameStackTop < 16384) :
    step m 41 n = .ok { m with
      state := estate.ParsingText
      nameLen := m.nameLen + 1
      nameStack := fun i => if i = m.nameStackTop then m.nameLen else m.nameStack i
      nameStackTop := m.nameStackTop - m.nameLen
      stdout := m.stdout ++ [32, 47, 62] } := by
  have hw : whitespace 41 = false := by decide
  simp only [step, hs, hw, if_true, if_false, Bool.false_eq_true]
  rw [push_eq _ m h1 h3, ok_bind]
  unfold discard_name
  rw [if_neg (by simp only []; omega)]
  simp only [ok_bind, add_sub_cancel_right, if_true, toChar_small m.nameLen h0 (by omega)]
  have e : m.nameStackTop + 1 - m.nameLen - 1 = m.nameStackTop - m.nameLen := by omega
  simp [pure, Except.pure, fputs, e]

/-! ### States after a step -/

theorem final_bind (x : Run) (f : Machine → Run) :
    (∃ e, x = .error e ∧ (x >>= f) = .error e) ∨ (∃ m1, x = .ok m1 ∧ (x >>= f) = f m1) := by
  cases x with
  | error e => exact Or.inl ⟨e, rfl, rfl⟩
  | ok m1 => exact Or.inr ⟨m1, rfl, rfl⟩

theorem pop_name_final (m : Machine) :
    (final (pop_name m)).state = m.state ∧ (final (pop_name m)).nameStack = m.nameStack ∧
    (final (pop_name m)).seenQuote = m.seenQuote := by
  unfold pop_name
  split
  · exact ⟨rfl, rfl, rfl⟩
  · simp [final, pop_name_loop_eq, fputc]

/-- No step leads to `ParsingStart` from another state, and a failing step
leaves the state as it is. -/
theorem step_state_ne_start (m : Machine) (c n : Int) (hs : m.state ≠ estate.ParsingStart) :
    (final (step m c n)).state ≠ estate.ParsingStart := by
  unfold step
  split
  · rename_i h; exact absurd h hs
  · rename_i h
    split
    · rcases final_bind (push m.nameLen (fputc c m)) _ with ⟨e, he, hb⟩ | ⟨m1, _, hb⟩
      · rw [hb, ← he, (push_final _ _).2.1]; simp [fputc, h]
      · rw [hb]; simp [final, pure, Except.pure]
    · split
      · rcases final_bind (push m.nameLen m) _ with ⟨e, he, hb⟩ | ⟨m1, hm1, hb⟩
        · rw [hb, ← he, (push_final _ _).2.1]; simp [h]
        · rw [hb]
          have hs1 : m1.state = m.state := by
            have := (push_final m.nameLen m).2.1
            rw [hm1] at this; exact this
          rcases final_bind (discard_name m1) _ with ⟨e, he, hb⟩ | ⟨m2, _, hb⟩
          · rw [hb, ← he, (discard_name_final _).2.1, hs1]; simp [h]
          · rw [hb]; simp [final, pure, Except.pure]
      · rw [(push_final _ _).2.1]; simp [fputc, h]
  · rename_i h
    split
    · simp [final, start_element_name]
    · split
      · rcases final_bind (discard_name m) _ with ⟨e, he, hb⟩ | ⟨m2, _, hb⟩
        · rw [hb, ← he, (discard_name_final _).2.1]; simp [h]
        · rw [hb]; simp [final, pure, Except.pure]
      · split
        · simp [final, fputc, h]
        · split
          · split
            · simp [final]
            · split <;> simp [final]
          · simp [final]
  · rename_i h
    simp only []
    split
    · simp [final]
    · split <;> simp [final, fputc, h]
  · rename_i h
    simp only []
    split
    · split <;> simp [final, fputc, h]
    · split <;> simp [final, fputc, h]
  · rename_i h
    split
    · simp [final, start_element_name]
    · split
      · rw [(pop_name_final m).1]; simp [h]
      · split
        · simp [final]
        · simp [final, fputc, h]
  · rename_i h
    split
    · simp [final]
    · simp [final, h]

theorem final_bind_prop (P : Machine → Prop) (x : Run) (f : Machine → Run)
    (hx : P (final x)) (hf : ∀ m1, x = .ok m1 → P (final (f m1))) : P (final (x >>= f)) := by
  cases x with
  | error e => exact hx
  | ok m1 => exact hf m1 rfl

/-- Once the state is not `ParsingStart`, it is not `ParsingStart` at the end of
any run, in success or in failure. -/
theorem mainLoopSeg_state_ne_start (l : List Int) (after : Int) : ∀ m : Machine,
    m.state ≠ estate.ParsingStart →
    (final (mainLoopSeg m after l)).state ≠ estate.ParsingStart := by
  induction l with
  | nil => intro m hs; exact hs
  | cons c rest ih =>
    intro m hs
    rw [mainLoopSeg_cons]
    exact final_bind_prop (fun m => m.state ≠ estate.ParsingStart) _ _
      (step_state_ne_start m c _ hs)
      (fun m1 h1 => ih m1 (by have := step_state_ne_start m c (peekOr after rest) hs
                              rw [h1] at this; exact this))


theorem mainLoopSeg_leaves_start (l : List Int) (after : Int) : ∀ m : Machine,
    (40 : Int) ∈ l → (final (mainLoopSeg m after l)).state ≠ estate.ParsingStart := by
  induction l with
  | nil => intro m h; cases h
  | cons c rest ih =>
    intro m h
    by_cases hs : m.state = estate.ParsingStart
    · by_cases hc : c = 40
      · subst hc
        rw [mainLoopSeg_cons, step_start_open m _ hs, ok_bind]
        exact mainLoopSeg_state_ne_start rest after _ (by simp [start_element_name])
      · have hstep : step m c (peekOr after rest) = .ok (fputc c m) := by
          simp [step, hs, hc]
        rw [mainLoopSeg_cons, hstep, ok_bind]
        rcases List.mem_cons.1 h with h | h
        · exact absurd h.symm hc
        · exact ih (fputc c m) h
    · exact mainLoopSeg_state_ne_start (c :: rest) after m hs

/-! ### Reading back what was stored -/

theorem writeBytes_below (l : List Int) : ∀ (f : Int → Int) (i j : Int), j < i →
    writeBytes f i l j = f j := by
  induction l with
  | nil => intro f i j _; rfl
  | cons b l ih =>
    intro f i j hj
    rw [writeBytes, ih _ (i + 1) j (by omega)]
    exact if_neg (by omega)

theorem readBytes_writeBytes (l : List Int) : ∀ (f : Int → Int) (i : Int),
    readBytes (writeBytes f i l) i l.length = l.map toChar := by
  induction l with
  | nil => intro f i; rfl
  | cons b l ih =>
    intro f i
    simp only [List.length_cons, readBytes, List.map_cons, writeBytes]
    rw [ih, writeBytes_below l _ (i + 1) i (by omega)]
    simp

/-- The record of `name` ends just below index `t` of the array `f`. -/
theorem topRecord_after_capture (f : Int → Int) (t : Int) (name : List Int) :
    (fun i => if i = t + name.length then (name.length : Int) else writeBytes f t name i)
        (t + name.length + 1 - 1) = name.length ∧
    readBytes
        (fun i => if i = t + name.length then (name.length : Int) else writeBytes f t name i)
        (t + name.length + 1 - 1 - name.length) name.length = name.map toChar := by
  refine ⟨by simp, ?_⟩
  have e : t + (name.length : Int) + 1 - 1 - name.length = t := by omega
  rw [e, readBytes_congr (writeBytes f t name) _ _ _
    (fun j _ hj => if_neg (by omega))]
  exact readBytes_writeBytes name f t

theorem mainLoopSeg_append_nil (l : List Int) (after : Int) (m : Machine) :
    mainLoopSeg m after (l ++ []) = (mainLoopSeg m after l >>= fun m1 => .ok m1) := by
  rw [List.append_nil]
  cases mainLoopSeg m after l <;> rfl

/-- The loop over two consecutive segments. -/
theorem mainLoopSeg_append_list (l r : List Int) (after : Int) (m : Machine) :
    mainLoopSeg m after (l ++ r)
      = (mainLoopSeg m (peekOr after r) l >>= fun m1 => mainLoopSeg m1 after r) := by
  cases r with
  | nil => exact mainLoopSeg_append_nil l after m
  | cons c r => exact mainLoopSeg_append l c r after m

/-! ### Opening and closing an element -/

/-- In `ParsingStart`, `ParsingAttributes` or `ParsingText`, `(` starts a name
capture; in `ParsingAttributes` the `>` of the parent is written first. -/
theorem step_open_paren (m : Machine) (n : Int)
    (hs : m.state = estate.ParsingStart ∨ m.state = estate.ParsingAttributes ∨
      m.state = estate.ParsingText) :
    step m 40 n = .ok { m with
      state := estate.ParsingElementName
      nameLen := 0
      stdout := m.stdout ++ (if m.state = estate.ParsingAttributes then [62] else []) ++ [60] } := by
  rcases hs with hs | hs | hs <;> simp [step, hs, start_element_name, fputc]

/-- In `ParsingElementName`, a whitespace byte is written, the length of the
captured name is pushed, and the state is `ParsingAttributes`. -/
theorem step_name_end (m : Machine) (w n : Int) (hs : m.state = estate.ParsingElementName)
    (hw : whitespace w = true) (h0 : 0 ≤ m.nameLen) (h1 : m.nameLen < 127)
    (h3 : m.nameStackTop < 16384) :
    step m w n = .ok { m with
      state := estate.ParsingAttributes
      nameLen := m.nameLen + 1
      nameStack := fun i => if i = m.nameStackTop then m.nameLen else m.nameStack i
      nameStackTop := m.nameStackTop + 1
      stdout := m.stdout ++ [w % 256] } := by
  simp only [step, hs, hw, if_true]
  rw [push_eq _ (fputc w m) (by simpa [fputc] using h1) (by simpa [fputc] using h3), ok_bind]
  simp [pure, Except.pure, fputc, toChar_small m.nameLen h0 (by omega)]

theorem whitespace_byte (w : Int) (hw : whitespace w = true) : isByte w ∧ w ≠ 41 ∧ w ≠ 40 := by
  unfold whitespace at hw
  simp only [Bool.or_eq_true, beq_iff_eq] at hw
  unfold isByte
  omega

/-- From the start of a name capture, the bytes of a name of at most 126 bytes
followed by a whitespace byte leave the record of the name on the stack. -/
theorem capture_named (m : Machine) (name : List Int) (w after : Int)
    (hs : m.state = estate.ParsingElementName) (hl : m.nameLen = 0)
    (hlen : name.length ≤ 126) (hv : ValidInput name)
    (hname : ∀ b ∈ name, whitespace b = false ∧ b ≠ 41)
    (hw : whitespace w = true)
    (htop : m.nameStackTop + name.length + 1 ≤ 16384) :
    mainLoopSeg m after (name ++ [w]) = .ok { m with
      state := estate.ParsingAttributes
      nameLen := name.length + 1
      nameStack := fun i => if i = m.nameStackTop + name.length then (name.length : Int)
        else writeBytes m.nameStack m.nameStackTop name i
      nameStackTop := m.nameStackTop + name.length + 1
      stdout := m.stdout ++ name ++ [w] } := by
  have hcap := name_capture name w m hs hname (by rw [hl]; omega) (by omega)
  have hstep := step_name_end
    { m with
      nameLen := m.nameLen + name.length
      nameStack := writeBytes m.nameStack m.nameStackTop name
      nameStackTop := m.nameStackTop + name.length
      stdout := m.stdout ++ name.map (fun b => b % 256) }
    w (peekOr after []) hs hw (by simp only [hl]; omega) (by simp only [hl]; omega)
    (by simp only []; omega)
  rw [mainLoopSeg_append, hcap, ok_bind, mainLoopSeg_cons, hstep, ok_bind]
  simp [mainLoopSeg, hl, map_mod_valid name hv, mod_byte w (whitespace_byte w hw).1]

/-- In `ParsingText`, `)` with the record of `name` on top of the stack writes
`</`, `name`, `>` and removes the record. -/
theorem step_close_named (m : Machine) (n : Int) (name : List Int)
    (hs : m.state = estate.ParsingText) (hv : ValidInput name)
    (htop : 0 < m.nameStackTop)
    (hlen : m.nameStack (m.nameStackTop - 1) = name.length)
    (hrd : readBytes m.nameStack (m.nameStackTop - 1 - name.length) name.length
      = name.map toChar) :
    step m 41 n = .ok { m with
      nameStackTop := m.nameStackTop - 1 - name.length
      stdout := m.stdout ++ 60 :: 47 :: name ++ [62] } := by
  have hstep : step m 41 n = pop_name m := by simp [step, hs]
  rw [hstep, pop_name_eq m htop, hlen]
  have e1 : m.nameStackTop - (name.length : Int) - 1 = m.nameStackTop - 1 - name.length := by
    omega
  have e2 : (m.nameStackTop - 1 - (m.nameStackTop - 1 - (name.length : Int))).toNat
      = name.length := by omega
  rw [e1, e2, hrd, map_toChar_mod_valid name hv]
  simp

/-- In `ParsingText`, a segment without `(`, `)` and `\` is copied to `stdout`
and nothing else changes. -/
theorem text_copies (l : List Int) (after : Int) : ∀ m : Machine,
    m.state = estate.ParsingText → (∀ b ∈ l, b ≠ 40 ∧ b ≠ 41 ∧ b ≠ 92) →
    mainLoopSeg m after l = .ok { m with stdout := m.stdout ++ l.map (fun b => b % 256) } := by
  induction l with
  | nil => intro m _ _; simp [mainLoopSeg]
  | cons c rest ih =>
    intro m hs hl
    have hc := hl c (List.mem_cons_self c rest)
    have hstep : step m c (peekOr after rest) = .ok (fputc c m) := by
      simp [step, hs, hc.1, hc.2.1, hc.2.2]
    rw [mainLoopSeg_cons, hstep, ok_bind,
      ih (fputc c m) hs (fun b hb => hl b (List.mem_cons_of_mem c hb))]
    simp [fputc]

/-- In `ParsingAttributes`, a byte that is none of `(`, `)`, `\` and not
whitespace ends the tag: `>` and the byte are written and text follows. -/
theorem step_attributes_text (m : Machine) (c n : Int)
    (hs : m.state = estate.ParsingAttributes)
    (hc : c ≠ 40 ∧ c ≠ 41 ∧ c ≠ 92 ∧ whitespace c = false) :
    step m c n = .ok { m with
      state := estate.ParsingText
      stdout := m.stdout ++ [62, c % 256] } := by
  simp [step, hs, hc.1, hc.2.1, hc.2.2.1, hc.2.2.2, fputc]

/-! ### The bound on the length of a name -/

theorem main_of_loop_error {l : List Int} {e : Fatal × Machine}
    (h : mainLoop Machine.init l = .error e) : main l = .error e := by
  unfold main
  rw [h]
  rfl

/-- The loop of `main` on `(`, a name of at most 126 bytes, `)`. -/
theorem mainLoop_self_closing (name : List Int) (hlen : name.length ≤ 126)
    (hv : ValidInput name) (hname : ∀ b ∈ name, whitespace b = false ∧ b ≠ 41) :
    mainLoop Machine.init (40 :: name ++ [41]) = .ok
      { state := estate.ParsingText
        nameStack := fun i => if i = (name.length : Int) then (name.length : Int)
          else writeBytes (fun _ => 0) 0 name i
        nameStackTop := 0
        nameLen := name.length + 1
        seenQuote := 0
        stdout := 60 :: name ++ [32, 47, 62] } := by
  have hcap := name_capture name 41 (start_element_name Machine.init) rfl hname
    (by simp only [start_element_name]; omega)
    (by simp only [start_element_name, fputc, Machine.init]; omega)
  rw [mainLoop_eq_seg, List.cons_append, mainLoopSeg_cons, step_start_open _ _ rfl, ok_bind,
    mainLoopSeg_append, hcap, ok_bind, mainLoopSeg_cons,
    step_name_close _ _ rfl (by simp only [start_element_name]; omega)
      (by simp only [start_element_name]; omega)
      (by simp only [start_element_name, fputc, Machine.init]; omega)
      (by simp only [start_element_name, fputc, Machine.init]; omega)]
  simp [mainLoopSeg, start_element_name, fputc, Machine.init, map_mod_valid name hv]
  rfl

/-- In `ParsingElementName` with 127 bytes captured, the next byte, if it is not
whitespace, fails with `NameTooLong`: a name byte cannot be pushed, and on `)` the
length cannot be pushed. -/
theorem step_name_too_long (m : Machine) (c n : Int) (hs : m.state = estate.ParsingElementName)
    (hl : 127 ≤ m.nameLen) (hc : whitespace c = false) :
    failure (step m c n) = some Fatal.NameTooLong ∧
    (final (step m c n)).nameStackTop = m.nameStackTop := by
  have hp : ∀ a (m1 : Machine), m1.nameLen = m.nameLen →
      push a m1 = .error (Fatal.NameTooLong, m1) := by
    intro a m1 h1
    unfold push
    rw [if_pos (by rw [h1]; unfold CHAR_MAX; omega)]
  simp only [step, hs, hc, Bool.false_eq_true, if_false]
  split
  · rw [hp _ m rfl]; exact ⟨rfl, rfl⟩
  · rw [hp _ (fputc c m) rfl]; exact ⟨rfl, rfl⟩

/-- From the start of a name capture, 127 bytes that are neither whitespace nor
`)`, followed by any byte that is not whitespace, fail with `NameTooLong`. -/
theorem capture_too_long (m : Machine) (name : List Int) (c after : Int) (rest : List Int)
    (hs : m.state = estate.ParsingElementName) (hl : m.nameLen = 0)
    (hlen : name.length = 127)
    (hname : ∀ b ∈ name, whitespace b = false ∧ b ≠ 41)
    (hc : whitespace c = false)
    (htop : m.nameStackTop + 127 ≤ 16384) :
    failure (mainLoopSeg m after (name ++ c :: rest)) = some Fatal.NameTooLong ∧
    (final (mainLoopSeg m after (name ++ c :: rest))).nameStackTop = m.nameStackTop + 127 := by
  have hcap := name_capture name c m hs hname (by rw [hl, hlen]; norm_num)
    (by rw [hlen]; exact_mod_cast htop)
  rw [mainLoopSeg_append, hcap, ok_bind, mainLoopSeg_cons]
  have hstep := step_name_too_long
    { m with
      nameLen := m.nameLen + name.length
      nameStack := writeBytes m.nameStack m.nameStackTop name
      nameStackTop := m.nameStackTop + name.length
      stdout := m.stdout ++ name.map (fun b => b % 256) }
    c (peekOr after rest) hs (by simp only [hl, hlen]; norm_num) hc
  cases h : step
    { m with
      nameLen := m.nameLen + name.length
      nameStack := writeBytes m.nameStack m.nameStackTop name
      nameStackTop := m.nameStackTop + name.length
      stdout := m.stdout ++ name.map (fun b => b % 256) }
    c (peekOr after rest) with
  | ok m1 => rw [h] at hstep; cases hstep.1
  | error e =>
    rw [h] at hstep
    rw [error_bind]
    refine ⟨hstep.1, ?_⟩
    rw [hstep.2, hlen]
    norm_num

/-- The run of `main` on `(`, a name of 127 bytes or more, `)`. -/
theorem main_name_too_long (name : List Int) (hlen : 127 ≤ name.length)
    (hname : ∀ b ∈ name, whitespace b = false ∧ b ≠ 41) :
    failure (main (40 :: name ++ [41])) = some Fatal.NameTooLong := by
  have hsplit : name ++ [41] = name.take 127 ++ (name.drop 127 ++ [41]) := by
    rw [← List.append_assoc, List.take_append_drop]
  have htake : (name.take 127).length = 127 := by
    rw [List.length_take]; omega
  have hmem : ∀ b ∈ name.take 127, whitespace b = false ∧ b ≠ 41 :=
    fun b hb => hname b (List.mem_of_mem_take hb)
  obtain ⟨c, r, hcr, hc⟩ : ∃ c r, name.drop 127 ++ [41] = c :: r ∧ whitespace c = false := by
    cases hd : name.drop 127 with
    | nil => exact ⟨41, [], rfl, by decide⟩
    | cons c d =>
      refine ⟨c, d ++ [41], List.cons_append c d [41], ?_⟩
      have : c ∈ name := List.mem_of_mem_drop (by rw [hd]; exact List.mem_cons_self c d)
      exact (hname c this).1
  have hrun := (capture_too_long (start_element_name Machine.init) (name.take 127) c EOF r
    rfl rfl htake hmem hc (by simp [start_element_name, fputc, Machine.init])).1
  have hloop : failure (mainLoop Machine.init (40 :: name ++ [41]))
      = some Fatal.NameTooLong := by
    rw [mainLoop_eq_seg, List.cons_append, mainLoopSeg_cons, step_start_open _ _ rfl, ok_bind,
      hsplit, hcr]
    exact hrun
  cases h : mainLoop Machine.init (40 :: name ++ [41]) with
  | ok m => rw [h] at hloop; cases hloop
  | error e =>
    rw [main_of_loop_error h]
    rw [h] at hloop
    exact hloop

/-- Outside of name capture and of `)`, a step leaves the stack array and its top
as they were, and fails only in `ParsingTextEscaped`. -/
theorem step_keeps_stack (m : Machine) (c n : Int)
    (h : m.state = estate.ParsingStart ∨ m.state = estate.ParsingAttribute ∨
      m.state = estate.ParsingAttributeValue ∨ m.state = estate.ParsingTextEscaped ∨
      ((m.state = estate.ParsingAttributes ∨ m.state = estate.ParsingText) ∧ c ≠ 41)) :
    (final (step m c n)).nameStack = m.nameStack ∧
    (final (step m c n)).nameStackTop = m.nameStackTop ∧
    (m.state ≠ estate.ParsingTextEscaped → failure (step m c n) = none) := by
  rcases h with hs | hs | hs | hs | ⟨hs | hs, hc⟩
  · simp only [step, hs]
    split <;> simp [final, failure, start_element_name, fputc]
  · simp only [step, hs]
    split
    · simp [final, failure, fputc]
    · split <;> simp [final, failure, fputc]
  · simp only [step, hs]
    split
    · split <;> simp [final, failure, fputc]
    · split <;> simp [final, failure, fputc]
  · simp only [step, hs]
    split <;> simp [final, failure, fputc]
  · simp only [step, hs, hc, if_false]
    split
    · simp [final, failure, start_element_name, fputc]
    · split
      · simp [final, failure, fputc]
      · split
        · split
          · simp [final, failure, fputc]
          · split <;> simp [final, failure, fputc]
        · simp [final, failure, fputc]
  · simp only [step, hs, hc, if_false]
    split
    · simp [final, failure, start_element_name, fputc]
    · split <;> simp [final, failure, fputc]

/-! ### The bound on the storage of the stack -/

/-- A step from a machine that refines the specification raises the top of the
stack by at most one, and only through a `push` that found room. -/
theorem step_top_le {m : Machine} {a : Spec} (c n : Int) (hR : Refines m a)
    {m1 : Machine} (h : step m c n = .ok m1) :
    m1.nameStackTop ≤ m.nameStackTop ∨
    (m1.nameStackTop = m.nameStackTop + 1 ∧ m.nameStackTop < 16384) := by
  by_cases hfr : m.state = estate.ParsingStart ∨ m.state = estate.ParsingAttribute ∨
      m.state = estate.ParsingAttributeValue ∨ m.state = estate.ParsingTextEscaped ∨
      ((m.state = estate.ParsingAttributes ∨ m.state = estate.ParsingText) ∧ c ≠ 41)
  · have := (step_keeps_stack m c n hfr).2.1
    rw [h] at this
    exact Or.inl (le_of_eq this)
  · have hn := hR.names
    cases hs : m.state with
    | ParsingStart => exact absurd (Or.inl hs) hfr
    | ParsingAttribute => exact absurd (Or.inr (Or.inl hs)) hfr
    | ParsingAttributeValue => exact absurd (Or.inr (Or.inr (Or.inl hs))) hfr
    | ParsingTextEscaped => exact absurd (Or.inr (Or.inr (Or.inr (Or.inl hs)))) hfr
    | ParsingAttributes =>
      have hc : c = 41 := by
        by_contra hc
        exact hfr (Or.inr (Or.inr (Or.inr (Or.inr ⟨Or.inl hs, hc⟩))))
      subst hc
      rw [if_neg (by rw [hs]; decide)] at hn
      have e40 : ¬ ((41 : Int) = 40) := by decide
      simp only [step, hs, e40, if_true, if_false] at h
      obtain ⟨m0, hd, hp⟩ := bind_ok h
      obtain ⟨htop, hm0⟩ := discard_name_ok hd
      injection hp with hp
      subst hp hm0
      obtain ⟨N, rest, _, _, hlen, _, _⟩ := Decodes_top hn htop
      left
      simp only [fputs, hlen]
      omega
    | ParsingText =>
      have hc : c = 41 := by
        by_contra hc
        exact hfr (Or.inr (Or.inr (Or.inr (Or.inr ⟨Or.inr hs, hc⟩))))
      subst hc
      rw [if_neg (by rw [hs]; decide)] at hn
      have e40 : ¬ ((41 : Int) = 40) := by decide
      simp only [step, hs, e40, if_true, if_false] at h
      obtain ⟨htop, hm1⟩ := pop_name_ok h
      subst hm1
      obtain ⟨N, rest, _, _, hlen, _, _⟩ := Decodes_top hn htop
      left
      simp only [hlen]
      omega
    | ParsingElementName =>
      rw [if_pos hs] at hn
      obtain ⟨hlen, _, _, _⟩ := hn
      simp only [step, hs] at h
      split_ifs at h with h1 h2
      · obtain ⟨m0, hp, hm1⟩ := bind_ok h
        obtain ⟨_, ht, hm0⟩ := push_ok hp
        injection hm1 with hm1
        subst hm1 hm0
        right
        simp only [fputc, NAMESTACKZ] at ht ⊢
        exact ⟨trivial, by omega⟩
      · obtain ⟨m0, hp, hm1⟩ := bind_ok h
        obtain ⟨hl, ht, hm0⟩ := push_ok hp
        obtain ⟨m2, hd, hm2⟩ := bind_ok hm1
        obtain ⟨_, hm2'⟩ := discard_name_ok hd
        injection hm2 with hm2
        subst hm2 hm2' hm0
        left
        simp only [CHAR_MAX] at hl
        simp only [fputs, add_sub_cancel_right, if_true]
        rw [toChar_small _ (by omega) (by omega)]
        omega
      · obtain ⟨_, ht, hm0⟩ := push_ok h
        subst hm0
        right
        simp only [fputc, NAMESTACKZ] at ht ⊢
        exact ⟨trivial, by omega⟩

/-- Along a run on valid bytes from a machine that refines the specification,
the top of the stack stays within the array. -/
theorem run_top_le (l : List Int) (after : Int) : ∀ (m : Machine) (a : Spec),
    Refines m a → m.nameStackTop ≤ 16384 → ValidInput l →
    ∀ m1, mainLoopSeg m after l = .ok m1 → m1.nameStackTop ≤ 16384 := by
  induction l with
  | nil =>
    intro m a _ ht _ m1 h
    injection h with h
    subst h
    exact ht
  | cons c rest ih =>
    intro m a hR ht hv m1 h
    rw [mainLoopSeg_cons] at h
    obtain ⟨m0, h0, h1⟩ := bind_ok h
    obtain ⟨a0, _, hR0⟩ := sim_step c _ hR (hv c (List.mem_cons_self c rest)) h0
    have ht0 : m0.nameStackTop ≤ 16384 := by
      rcases step_top_le c _ hR h0 with h | ⟨h, h'⟩ <;> omega
    exact ih m0 a0 hR0 ht0 (fun b hb => hv b (List.mem_cons_of_mem c hb)) m1 h1

theorem reach_top_le (pre : List Int) (after : Int) (hv : ValidInput pre)
    (hrun : failure (reach pre after) = none) :
    (final (reach pre after)).nameStackTop ≤ 16384 :=
  run_top_le pre after Machine.init Spec.init Refines.init (by simp [Machine.init]) hv _
    (ok_of_failure_none hrun)

/-- From `ParsingStart`, `ParsingAttributes` or `ParsingText`, the bytes `(`, a name
of at most 126 bytes and a space open an element: the record of the name is on
the stack and the state is `ParsingAttributes`. -/
theorem open_named (m : Machine) (name : List Int) (after : Int)
    (hs : m.state = estate.ParsingStart ∨ m.state = estate.ParsingAttributes ∨
      m.state = estate.ParsingText)
    (hlen : name.length ≤ 126) (hv : ValidInput name)
    (hname : ∀ b ∈ name, whitespace b = false ∧ b ≠ 41)
    (htop : m.nameStackTop + name.length + 1 ≤ 16384) :
    mainLoopSeg m after (40 :: name ++ [32]) = .ok { m with
      state := estate.ParsingAttributes
      nameLen := name.length + 1
      nameStack := fun i => if i = m.nameStackTop + name.length then (name.length : Int)
        else writeBytes m.nameStack m.nameStackTop name i
      nameStackTop := m.nameStackTop + name.length + 1
      stdout := m.stdout ++ (if m.state = estate.ParsingAttributes then [62] else [])
        ++ [60] ++ name ++ [32] } := by
  rw [List.cons_append, mainLoopSeg_cons, step_open_paren m _ hs, ok_bind,
    capture_named _ name 32 after rfl rfl hlen hv hname (by decide) (by simpa using htop)]

/-- Opening `k` nested elements of the same name, as long as their records fit
in the array. -/
theorem open_nested (name : List Int) (after : Int)
    (hlen : name.length ≤ 126) (hv : ValidInput name)
    (hname : ∀ b ∈ name, whitespace b = false ∧ b ≠ 41) : ∀ (k : Nat) (m : Machine),
    (m.state = estate.ParsingStart ∨ m.state = estate.ParsingAttributes ∨
      m.state = estate.ParsingText) →
    m.nameStackTop + k * (name.length + 1) ≤ 16384 →
    ∃ m1, mainLoopSeg m after (repeatSeg (40 :: name ++ [32]) k) = .ok m1 ∧
      m1.nameStackTop = m.nameStackTop + k * (name.length + 1) ∧
      (m.state = estate.ParsingAttributes → m1.state = estate.ParsingAttributes) ∧
      (0 < k → m1.state = estate.ParsingAttributes) := by
  intro k
  induction k with
  | zero =>
    intro m hs _
    exact ⟨m, rfl, by simp, fun h => h, fun h => absurd h (lt_irrefl 0)⟩
  | succ k ih =>
    intro m hs htop
    have hk : (0 : Int) ≤ k * ((name.length : Int) + 1) := by positivity
    have hexp : ((k + 1 : Nat) : Int) * ((name.length : Int) + 1)
        = k * ((name.length : Int) + 1) + (name.length + 1) := by push_cast; ring
    rw [hexp] at htop
    obtain ⟨m1, h1, ht1, hs1, _⟩ := ih
      { m with
        state := estate.ParsingAttributes
        nameLen := name.length + 1
        nameStack := fun i => if i = m.nameStackTop + name.length then (name.length : Int)
          else writeBytes m.nameStack m.nameStackTop name i
        nameStackTop := m.nameStackTop + name.length + 1
        stdout := m.stdout ++ (if m.state = estate.ParsingAttributes then [62] else [])
          ++ [60] ++ name ++ [32] }
      (Or.inr (Or.inl rfl)) (by simp only []; omega)
    refine ⟨m1, ?_, ?_, fun _ => hs1 rfl, fun _ => hs1 rfl⟩
    · rw [repeatSeg, mainLoopSeg_append_list,
        open_named m name _ hs hlen hv hname (by omega), ok_bind]
      exact h1
    · rw [ht1, hexp]; simp only []; omega

theorem main_of_loop_failure {l : List Int} {e : Fatal}
    (h : failure (mainLoop Machine.init l) = some e) :
    failure (main l) = some e ∧ final (main l) = final (mainLoop Machine.init l) := by
  cases hl : mainLoop Machine.init l with
  | ok m => rw [hl] at h; cases h
  | error x =>
    rw [main_of_loop_error hl]
    rw [hl] at h
    exact ⟨h, rfl⟩

/-- A `push` on a full array fails and writes nothing: with `StackOverflow`, unless
`nameLen` has reached `CHAR_MAX`, which is checked first and gives
`NameTooLong`. -/
theorem push_full (x : Int) (m : Machine) (h : 16384 ≤ m.nameStackTop) :
    (m.nameLen < 127 → push x m = .error (Fatal.StackOverflow, m)) ∧
    (127 ≤ m.nameLen → push x m = .error (Fatal.NameTooLong, m)) := by
  rcases push_cases x m with ⟨h1, h2⟩ | ⟨h1, h2, h3⟩ | ⟨h1, h2, h3⟩
  · simp only [CHAR_MAX] at h1
    exact ⟨fun hl => absurd h1 (by omega), fun _ => h2⟩
  · simp only [CHAR_MAX] at h1
    exact ⟨fun _ => h3, fun hl => absurd h1 (by omega)⟩
  · simp only [NAMESTACKZ] at h2
    omega

/-- The run that opens 8192 nested elements named `a` fills the array exactly. -/
theorem nested_8192 (after : Int) :
    ∃ m1, mainLoopSeg Machine.init after (repeatSeg [40, 97, 32] 8192) = .ok m1 ∧
      m1.nameStackTop = 16384 ∧ m1.state = estate.ParsingAttributes := by
  obtain ⟨m1, h1, ht, _, hs⟩ := open_nested [97] after (by decide) (by decide) (by decide)
    8192 Machine.init (Or.inl rfl) (by simp [Machine.init])
  refine ⟨m1, h1, ?_, hs (by decide)⟩
  rw [ht]
  simp [Machine.init]

/-- After 8192 open elements named `a`, the name byte of the next element fails
with `StackOverflow`. -/
theorem nested_8193_overflows :
    failure (main (repeatSeg [40, 97, 32] 8192 ++ [40, 97])) = some Fatal.StackOverflow := by
  obtain ⟨m1, h1, ht, hs⟩ := nested_8192 40
  have hstep2 : ∀ (m : Machine) (n : Int), m.nameLen = 0 →
      m.state = estate.ParsingElementName →
      m.nameStackTop = 16384 → step m 97 n = .error (Fatal.StackOverflow, fputc 97 m) := by
    intro m n hl hs htop
    have hw : whitespace 97 = false := by decide
    have h41 : ¬ ((97 : Int) = 41) := by decide
    simp only [step, hs, hw, h41, Bool.false_eq_true, if_false]
    exact (push_full 97 (fputc 97 m) (by simp only [fputc]; omega)).1
      (by simp only [fputc]; omega)
  have hloop : failure (mainLoop Machine.init (repeatSeg [40, 97, 32] 8192 ++ [40, 97]))
      = some Fatal.StackOverflow := by
    rw [mainLoop_eq_seg, mainLoopSeg_append, h1, ok_bind, mainLoopSeg_cons,
      step_open_paren m1 _ (Or.inr (Or.inl hs)), ok_bind, mainLoopSeg_cons,
      hstep2 _ _ (by rfl) (by rfl) (by exact ht)]
    rfl
  exact (main_of_loop_failure hloop).1

/-- With 128 open elements of 126-byte names and one of an empty name, a name
of 127 bytes fills the array exactly, and the next name byte fails with
`NameTooLong`, on a full array. -/
theorem full_array_name_too_long :
    failure (main (repeatSeg (40 :: List.replicate 126 97 ++ [32]) 128
        ++ ([40, 32] ++ 40 :: (List.replicate 127 97 ++ [97])))) = some Fatal.NameTooLong ∧
    (final (main (repeatSeg (40 :: List.replicate 126 97 ++ [32]) 128
        ++ ([40, 32] ++ 40 :: (List.replicate 127 97 ++ [97]))))).nameStackTop = 16384 := by
  have hrep : ∀ k b, b ∈ List.replicate k (97 : Int) → whitespace b = false ∧ b ≠ 41 := by
    intro k b hb
    rw [List.eq_of_mem_replicate hb]
    decide
  have hvrep : ValidInput (List.replicate 126 97) := by
    intro b hb
    rw [List.eq_of_mem_replicate hb]
    decide
  obtain ⟨m1, h1, ht1, _, hs1⟩ := open_nested (List.replicate 126 97) 40 (by simp) hvrep
    (hrep 126) 128 Machine.init (Or.inl rfl) (by simp [Machine.init])
  have ht1' : m1.nameStackTop = 16256 := by rw [ht1]; simp [Machine.init]
  have h2 := open_named m1 [] 40 (Or.inr (Or.inl (hs1 (by decide)))) (by simp)
    (by intro b hb; cases hb) (by intro b hb; cases hb) (by rw [ht1']; simp)
  have h3 := capture_too_long
    { m1 with
      state := estate.ParsingElementName
      nameLen := 0
      nameStack := fun i => if i = m1.nameStackTop + ([] : List Int).length
        then (([] : List Int).length : Int)
        else writeBytes m1.nameStack m1.nameStackTop [] i
      nameStackTop := m1.nameStackTop + ([] : List Int).length + 1
      stdout := m1.stdout ++ (if m1.state = estate.ParsingAttributes then [62] else [])
        ++ [60] ++ [] ++ [32] ++ [62] ++ [60] }
    (List.replicate 127 97) 97 EOF [] rfl rfl (by simp) (hrep 127) (by decide)
    (by simp only [ht1']; simp)
  have hloop : failure (mainLoop Machine.init
        (repeatSeg (40 :: List.replicate 126 97 ++ [32]) 128
          ++ ([40, 32] ++ 40 :: (List.replicate 127 97 ++ [97])))) = some Fatal.NameTooLong ∧
      (final (mainLoop Machine.init
        (repeatSeg (40 :: List.replicate 126 97 ++ [32]) 128
          ++ ([40, 32] ++ 40 :: (List.replicate 127 97 ++ [97]))))).nameStackTop = 16384 := by
    rw [mainLoop_eq_seg, mainLoopSeg_append_list]
    have e : peekOr EOF ([40, 32] ++ 40 :: (List.replicate 127 97 ++ [97])) = 40 := rfl
    rw [e, h1, ok_bind]
    have e2 : ([40, 32] : List Int) = 40 :: [] ++ [32] := rfl
    rw [e2, mainLoopSeg_append_list]
    have e3 : peekOr EOF (40 :: (List.replicate 127 97 ++ [97])) = 40 := rfl
    rw [e3, h2, ok_bind, mainLoopSeg_cons, step_open_paren _ _ (Or.inr (Or.inl rfl)), ok_bind]
    refine ⟨h3.1, Eq.trans h3.2 ?_⟩
    simp only [ht1']
    simp
  exact ⟨(main_of_loop_failure hloop.1).1, by rw [(main_of_loop_failure hloop.1).2]; exact hloop.2⟩

/-! ### Runs over the rendering of a tree -/

/-- The run over `(`, name, `)` from `ParsingStart`, `ParsingAttributes` or
`ParsingText`: a self-closed element, with the stack as before below its top. -/
theorem leaf_run (m : Machine) (n : List Int) (after : Int)
    (hs : m.state = estate.ParsingStart ∨ m.state = estate.ParsingAttributes ∨
      m.state = estate.ParsingText)
    (h0 : 0 ≤ m.nameStackTop) (hn : nameOk n) (hfit : m.nameStackTop + n.length + 1 ≤ 16384) :
    ∃ m1, mainLoopSeg m after (40 :: n ++ [41]) = .ok m1 ∧
      m1.state = estate.ParsingText ∧ m1.nameStackTop = m.nameStackTop ∧
      (∀ j, j < m.nameStackTop → m1.nameStack j = m.nameStack j) ∧
      m1.stdout = m.stdout ++ (if m.state = estate.ParsingAttributes then [62] else [])
        ++ (60 :: n ++ [32, 47, 62]) := by
  obtain ⟨⟨_, hlen⟩, hv, hname⟩ := hn
  have hcap := name_capture n 41
    { m with
      state := estate.ParsingElementName
      nameLen := 0
      stdout := m.stdout ++ (if m.state = estate.ParsingAttributes then [62] else []) ++ [60] }
    rfl (fun b hb => ⟨(hname b hb).1, (hname b hb).2.2.1⟩) (by simp only []; omega)
    (by simp only []; omega)
  have hclose := step_name_close
    { m with
      state := estate.ParsingElementName
      nameLen := 0 + n.length
      nameStack := writeBytes m.nameStack m.nameStackTop n
      nameStackTop := m.nameStackTop + n.length
      stdout := m.stdout ++ (if m.state = estate.ParsingAttributes then [62] else []) ++ [60]
        ++ n.map (fun b => b % 256) }
    (peekOr after []) rfl (by simp only []; omega) (by simp only []; omega)
    (by simp only []; omega) (by simp only []; omega)
  refine ⟨{ m with
      state := estate.ParsingText
      nameLen := 0 + n.length + 1
      nameStack := fun i => if i = m.nameStackTop + n.length then (0 + n.length : Int)
        else writeBytes m.nameStack m.nameStackTop n i
      nameStackTop := m.nameStackTop + n.length - (0 + n.length)
      stdout := m.stdout ++ (if m.state = estate.ParsingAttributes then [62] else []) ++ [60]
        ++ n.map (fun b => b % 256) ++ [32, 47, 62] }, ?_, ?_, ?_, ?_, ?_⟩
  · rw [List.cons_append, mainLoopSeg_cons, step_open_paren m _ hs, ok_bind,
      mainLoopSeg_append, hcap, ok_bind, mainLoopSeg_cons, hclose, ok_bind]
    rfl
  · rfl
  · simp only []; omega
  · intro j hj
    simp only []
    rw [if_neg (by omega)]
    exact writeBytes_below n _ _ j hj
  · simp [map_mod_valid n hv]


/-- In `ParsingText`, a space is written and nothing else changes. -/
theorem step_text_space (m : Machine) (n : Int) (hs : m.state = estate.ParsingText) :
    step m 32 n = .ok { m with stdout := m.stdout ++ [32] } := by
  simp [step, hs, fputc]

mutual
/-- The run over the rendering of a tree, from `ParsingStart`, `ParsingAttributes`
or `ParsingText`: it succeeds, writes the XML rendering (after the `>` of the
parent when the tree is a first child), ends in `ParsingText` and leaves the stack
as it was. -/
theorem tree_run : ∀ (t : Tree) (m : Machine) (after : Int),
    (m.state = estate.ParsingStart ∨ m.state = estate.ParsingAttributes ∨
      m.state = estate.ParsingText) →
    0 ≤ m.nameStackTop → t.ok m.nameStackTop →
    ∃ m1, mainLoopSeg m after t.xbly = .ok m1 ∧
      m1.state = estate.ParsingText ∧ m1.nameStackTop = m.nameStackTop ∧
      (∀ j, j < m.nameStackTop → m1.nameStack j = m.nameStack j) ∧
      m1.stdout = m.stdout ++ (if m.state = estate.ParsingAttributes then [62] else [])
        ++ t.xml
  | .node n [], m, after, hs, h0, hok => by
    simp only [Tree.ok, Tree.okAll] at hok
    simp only [Tree.xbly, Tree.xml]
    exact leaf_run m n after hs h0 hok.1 hok.2.1
  | .node n (c :: cs), m, after, hs, h0, hok => by
    simp only [Tree.ok, Tree.okAll] at hok
    obtain ⟨hn, hfit, hc, hcs⟩ := hok
    obtain ⟨⟨_, hlen⟩, hv, hname⟩ := hn
    have hopen := open_named m n (peekOr after (c.xbly ++ (Tree.xblyMore cs ++ [41])))
      hs hlen hv (fun b hb => ⟨(hname b hb).1, (hname b hb).2.2.1⟩) hfit
    obtain ⟨m3, h3, hs3, ht3, hf3, ho3⟩ := tree_run c
      { m with
        state := estate.ParsingAttributes
        nameLen := n.length + 1
        nameStack := fun i => if i = m.nameStackTop + n.length then (n.length : Int)
          else writeBytes m.nameStack m.nameStackTop n i
        nameStackTop := m.nameStackTop + n.length + 1
        stdout := m.stdout ++ (if m.state = estate.ParsingAttributes then [62] else [])
          ++ [60] ++ n ++ [32] }
      (peekOr after (Tree.xblyMore cs ++ [41])) (Or.inr (Or.inl rfl))
      (by simp only []; omega) hc
    simp only [if_true] at ht3 hf3 ho3
    obtain ⟨m4, h4, hs4, ht4, hf4, ho4⟩ := Tree.more_run cs m3 41 hs3 (by omega)
      (by rw [ht3]; exact hcs)
    have hrec := topRecord_after_capture m.nameStack m.nameStackTop n
    have htop4 : m4.nameStackTop = m.nameStackTop + n.length + 1 := by rw [ht4, ht3]
    have hfr : ∀ j, j < m.nameStackTop + n.length + 1 → m4.nameStack j
        = (fun i => if i = m.nameStackTop + n.length then (n.length : Int)
            else writeBytes m.nameStack m.nameStackTop n i) j := by
      intro j hj
      rw [hf4 j (by omega), hf3 j hj]
    have hclose := step_close_named m4 (peekOr after []) n hs4 hv (by omega)
      (by rw [htop4, hfr _ (by omega)]; exact hrec.1)
      (by rw [htop4, readBytes_congr _ m4.nameStack _ _ (fun j _ hj => hfr j (by omega))]
          exact hrec.2)
    refine ⟨{ m4 with
        nameStackTop := m4.nameStackTop - 1 - n.length
        stdout := m4.stdout ++ 60 :: 47 :: n ++ [62] }, ?_, ?_, ?_, ?_, ?_⟩
    · have e : (Tree.node n (c :: cs)).xbly
          = (40 :: n ++ [32]) ++ (c.xbly ++ (Tree.xblyMore cs ++ [41])) := by
        simp [Tree.xbly]
      rw [e, mainLoopSeg_append_list, hopen, ok_bind, mainLoopSeg_append_list, h3, ok_bind,
        mainLoopSeg_append, h4, ok_bind, mainLoopSeg_cons, hclose, ok_bind]
      rfl
    · exact hs4
    · show m4.nameStackTop - 1 - n.length = m.nameStackTop
      rw [htop4]; omega
    · intro j hj
      show m4.nameStack j = m.nameStack j
      rw [hfr j (by omega)]
      simp only []
      rw [if_neg (by omega)]
      exact writeBytes_below n _ _ j hj
    · show m4.stdout ++ 60 :: 47 :: n ++ [62] = _
      simp only [ho4, ho3, Tree.xml]
      simp
/-- The run over the renderings of further children, each after a space, from
`ParsingText`. -/
theorem Tree.more_run : ∀ (cs : List Tree) (m : Machine) (after : Int),
    m.state = estate.ParsingText → 0 ≤ m.nameStackTop → Tree.okAll m.nameStackTop cs →
    ∃ m1, mainLoopSeg m after (Tree.xblyMore cs) = .ok m1 ∧
      m1.state = estate.ParsingText ∧ m1.nameStackTop = m.nameStackTop ∧
      (∀ j, j < m.nameStackTop → m1.nameStack j = m.nameStack j) ∧
      m1.stdout = m.stdout ++ Tree.xmlMore cs
  | [], m, after, hs, _, _ => ⟨m, rfl, hs, rfl, fun _ _ => rfl, by simp [Tree.xmlMore]⟩
  | c :: cs, m, after, hs, h0, hok => by
    simp only [Tree.okAll] at hok
    obtain ⟨m2, h2, hs2, ht2, hf2, ho2⟩ := tree_run c { m with stdout := m.stdout ++ [32] }
      (peekOr after (Tree.xblyMore cs)) (Or.inr (Or.inr hs)) h0 hok.1
    have hne : ¬ (m.state = estate.ParsingAttributes) := by rw [hs]; decide
    simp only [hne, if_false, List.append_nil] at ho2
    obtain ⟨m3, h3, hs3, ht3, hf3, ho3⟩ := Tree.more_run cs m2 after hs2 (by rw [ht2]; exact h0)
      (by rw [ht2]; exact hok.2)
    refine ⟨m3, ?_, hs3, by rw [ht3, ht2], ?_, ?_⟩
    · simp only [Tree.xblyMore]
      rw [mainLoopSeg_cons, step_text_space m _ hs, ok_bind, mainLoopSeg_append_list, h2,
        ok_bind]
      exact h3
    · intro j hj
      rw [hf3 j (by rw [ht2]; exact hj), hf2 j hj]
    · simp only [ho3, ho2, Tree.xmlMore]
      simp
end

/-! ## Claims -/

/-- C1: after any valid input `pre` that the program has consumed without
failure, the byte array decodes to the list of open names that the
specification's translator holds (`Refines`).  When the program is then in
`ParsingText` with a non-empty stack and consumes `)`, the most recently opened
name `N` is the head of that list, the program writes exactly `</`, the bytes of
`N`, `>`, leaves the array untouched, lowers the top by the one record of `N`,
and decodes to the rest of the list, as the pop of the specification's
translator does. -/
theorem closing_tag_lifo (pre : List Int) (after : Int)
    (hv : ValidInput pre)
    (hrun : failure (reach pre 41) = none)
    (hs : (final (reach pre 41)).state = estate.ParsingText)
    (htop : 0 < (final (reach pre 41)).nameStackTop) :
    ∃ (a : Spec) (N : List Int) (ns : List (List Int)) (m1 : Machine),
      Spec.reach pre 41 = .ok a ∧ Refines (final (reach pre 41)) a ∧
      a.openNames = N :: ns ∧
      step (final (reach pre 41)) 41 after = .ok m1 ∧
      m1.stdout = (final (reach pre 41)).stdout ++ ([60, 47] ++ N ++ [62]) ∧
      m1.nameStack = (final (reach pre 41)).nameStack ∧
      m1.nameStackTop = (final (reach pre 41)).nameStackTop - (N.length + 1) ∧
      a.step 41 after = .ok (({ a with openNames := ns } : Spec).emit ([60, 47] ++ N ++ [62])) ∧
      Refines m1 (({ a with openNames := ns } : Spec).emit ([60, 47] ++ N ++ [62])) := by
  obtain ⟨a, ha, hR⟩ := reach_refines pre 41 hv hrun
  generalize final (reach pre 41) = m at hs htop hR ⊢
  have hn := hR.names
  rw [if_neg (by rw [hs]; decide)] at hn
  obtain ⟨N, ns, hopen, hvN, hlen, hrd, _⟩ := Decodes_top hn htop
  have hstep : step m 41 after = pop_name m := by simp [step, hs]
  have hsa : a.state = estate.ParsingText := by rw [← hR.state, hs]
  have hspec : a.step 41 after
      = .ok (({ a with openNames := ns } : Spec).emit ([60, 47] ++ N ++ [62])) := by
    simp [Spec.step, hsa, Spec.popName, hopen]
  have hk : ((m.nameStackTop - 1)
      - (m.nameStackTop - m.nameStack (m.nameStackTop - 1) - 1)).toNat = N.length := by
    rw [hlen]; omega
  obtain ⟨a1, ha1, hR1⟩ := sim_step 41 after hR (by unfold isByte; omega)
    (hstep.trans (pop_name_eq m htop))
  rw [hspec] at ha1
  injection ha1 with ha1
  subst ha1
  refine ⟨a, N, ns, _, ha, hR, hopen, hstep.trans (pop_name_eq m htop), ?_, rfl, ?_, hspec, hR1⟩
  · simp only [hk, hrd, map_toChar_mod_valid N hvN, List.append_assoc]
  · simp only [hlen]; omega

/-- C1, at an input: after `(a (b x` the program is in `ParsingText` with two
records on the stack, for the open names `b` and `a`, and the `)` that follows
closes `b`; the whole of
`(a (b x) (c) y)` closes `b` before `a`, and the self-closed `c` is not closed
again. -/
theorem closing_tag_lifo_witness :
    written (main (bytes "(a (b x) (c) y)")) = bytes "<a ><b >x</b> <c /> y</a>" ∧
    (Spec.final (Spec.reach (bytes "(a (b x") 41)).openNames = [bytes "b", bytes "a"] ∧
    ∃ (a : Spec) (N : List Int) (ns : List (List Int)) (m1 : Machine),
      Spec.reach (bytes "(a (b x") 41 = .ok a ∧ Refines (final (reach (bytes "(a (b x") 41)) a ∧
      a.openNames = N :: ns ∧
      step (final (reach (bytes "(a (b x") 41)) 41 32 = .ok m1 ∧
      m1.stdout = (final (reach (bytes "(a (b x") 41)).stdout ++ ([60, 47] ++ N ++ [62]) ∧
      m1.nameStack = (final (reach (bytes "(a (b x") 41)).nameStack ∧
      m1.nameStackTop = (final (reach (bytes "(a (b x") 41)).nameStackTop - (N.length + 1) ∧
      a.step 41 32 = .ok (({ a with openNames := ns } : Spec).emit ([60, 47] ++ N ++ [62])) ∧
      Refines m1 (({ a with openNames := ns } : Spec).emit ([60, 47] ++ N ++ [62])) :=
  ⟨by decide, by decide,
    closing_tag_lifo (bytes "(a (b x") 32 (by decide) (by decide) (by decide) (by decide)⟩

/-- C2 (as stated, refuted): translating `(a \x="1" (b) (c text))` does not
give the byte string `<a x="1"><b /><c>text</c></a>`: the whitespace bytes
of the input are copied to the output. -/
theorem scenario_nested_not_compact :
    ¬ (failure (main (bytes "(a \\x=\"1\" (b) (c text))")) = none ∧
       written (main (bytes "(a \\x=\"1\" (b) (c text))"))
         = bytes "<a x=\"1\"><b /><c>text</c></a>") := by
  decide

/-- C2 (amended): translating `(a \x="1" (b) (c text))` succeeds and the
output is exactly `<a x="1" ><b /> <c >text</c></a>`. -/
theorem scenario_nested_output :
    failure (main (bytes "(a \\x=\"1\" (b) (c text))")) = none ∧
    written (main (bytes "(a \\x=\"1\" (b) (c text))"))
      = bytes "<a x=\"1\" ><b /> <c >text</c></a>" := by
  decide

/-- C3 (as stated, refuted): translating `(p \class="foo" \id='bar' text)`
does not give `<p class="foo" id='bar'>text</p>`: the space after the last
attribute value is copied into the opening tag. -/
theorem scenario_attributes_not_compact :
    ¬ (failure (main (bytes "(p \\class=\"foo\" \\id=\x27bar\x27 text)")) = none ∧
       written (main (bytes "(p \\class=\"foo\" \\id=\x27bar\x27 text)"))
         = bytes "<p class=\"foo\" id=\x27bar\x27>text</p>") := by
  decide

/-- C3 (amended): translating `(p \class="foo" \id='bar' text)` succeeds and
the output is exactly `<p class="foo" id='bar' >text</p>`; each attribute value
keeps the quote character, double or single, it has in the input. -/
theorem scenario_attributes_output :
    failure (main (bytes "(p \\class=\"foo\" \\id=\x27bar\x27 text)")) = none ∧
    written (main (bytes "(p \\class=\"foo\" \\id=\x27bar\x27 text)"))
      = bytes "<p class=\"foo\" id=\x27bar\x27 >text</p>" := by
  decide

/-- C4: for every name of 1 to 126 bytes, none of them whitespace, `(`, `)` or
`\`, the input `(`, name, `)` is translated successfully to exactly `<`, name,
` />`: no closing tag is written, and the run ends in `ParsingText` with the
stack empty. -/
theorem self_closing_element (name : List Int)
    (hlen : 1 ≤ name.length ∧ name.length ≤ 126) (hv : ValidInput name)
    (hname : ∀ b ∈ name, whitespace b = false ∧ b ≠ 40 ∧ b ≠ 41 ∧ b ≠ 92) :
    failure (main (40 :: name ++ [41])) = none ∧
    written (main (40 :: name ++ [41])) = 60 :: name ++ [32, 47, 62] ∧
    (final (main (40 :: name ++ [41]))).nameStackTop = 0 ∧
    (final (main (40 :: name ++ [41]))).state = estate.ParsingText := by
  have hcap := name_capture name 41 (start_element_name Machine.init) rfl
    (fun b hb => ⟨(hname b hb).1, (hname b hb).2.2.1⟩)
    (by simp only [start_element_name]; omega)
    (by simp only [start_element_name, fputc, Machine.init]; omega)
  have hloop : mainLoop Machine.init (40 :: name ++ [41]) = .ok
      { state := estate.ParsingText
        nameStack := fun i => if i = (name.length : Int) then (name.length : Int)
          else writeBytes (fun _ => 0) 0 name i
        nameStackTop := 0
        nameLen := name.length + 1
        seenQuote := 0
        stdout := 60 :: name ++ [32, 47, 62] } := by
    rw [mainLoop_eq_seg, List.cons_append, mainLoopSeg_cons, step_start_open _ _ rfl, ok_bind,
      mainLoopSeg_append, hcap, ok_bind, mainLoopSeg_cons,
      step_name_close _ _ rfl (by simp only [start_element_name]; omega)
        (by simp only [start_element_name]; omega)
        (by simp only [start_element_name, fputc, Machine.init]; omega)
        (by simp only [start_element_name, fputc, Machine.init]; omega)]
    simp [mainLoopSeg, start_element_name, fputc, Machine.init, map_mod_valid name hv]
    rfl
  unfold main
  rw [hloop]
  exact ⟨rfl, rfl, rfl, rfl⟩

/-- C4, at an input: `tag` is a name of three valid bytes, none of them special,
and `(tag)` is translated to `<tag />` with the stack empty at the end. -/
theorem self_closing_element_witness :
    (1 ≤ (bytes "tag").length ∧ (bytes "tag").length ≤ 126) ∧ ValidInput (bytes "tag") ∧
    (failure (main (40 :: bytes "tag" ++ [41])) = none ∧
      written (main (40 :: bytes "tag" ++ [41])) = 60 :: bytes "tag" ++ [32, 47, 62] ∧
      (final (main (40 :: bytes "tag" ++ [41]))).nameStackTop = 0 ∧
      (final (main (40 :: bytes "tag" ++ [41]))).state = estate.ParsingText) ∧
    written (main (bytes "(tag)")) = bytes "<tag />" :=
  ⟨by decide, by decide,
    self_closing_element (bytes "tag") (by decide) (by decide) (by decide),
    by decide⟩

/-- C5 (the code at the failing input `(`): the run succeeds, having written
`<`, although one element was opened and none was closed; the check at the end
of input looks at `nameStackTop` only, which is still zero while the name of
the element just opened is empty.  The same happens after a closed root, on
`(a)(`. -/
theorem unbalanced_success :
    failure (main (bytes "(")) = none ∧ written (main (bytes "(")) = bytes "<" ∧
    opened (bytes "(") = 1 ∧ closed (bytes "(") = 0 ∧
    (final (main (bytes "("))).state = estate.ParsingElementName ∧
    (final (main (bytes "("))).nameStackTop = 0 ∧
    failure (main (bytes "(a)(")) = none ∧ written (main (bytes "(a)(")) = bytes "<a /><" ∧
    opened (bytes "(a)(") = 2 ∧ closed (bytes "(a)(") = 1 := by
  decide

/-- C6 (the code at the failing input `(a \(hi\))`): in `ParsingAttributes` the
backslash before `(` is written to the output after `>`, and the `(` that
follows is consumed in `ParsingText` as the start of an element: after
`(a \(` the program has written `<a >\<` and is capturing a name, and the whole
input is translated to `<a >\<hi\ /></a>`, not to `<a >(hi)</a>`. -/
theorem attribute_backslash_not_escape :
    written (reach (bytes "(a \\(") 104) = bytes "<a >\\<" ∧
    (final (reach (bytes "(a \\(") 104)).state = estate.ParsingElementName ∧
    opened (bytes "(a \\(hi\\))") = 2 ∧
    failure (main (bytes "(a \\(hi\\))")) = none ∧
    written (main (bytes "(a \\(hi\\))")) = bytes "<a >\\<hi\\ /></a>" ∧
    written (main (bytes "(a \\(hi\\))")) ≠ bytes "<a >(hi)</a>" := by
  decide

/-- C7: in `ParsingText`, whatever the stack holds, consuming `\` and then `c`,
one of `(`, `)`, `\`, writes the single byte `c` and changes nothing else: the
state is `ParsingText` again and the stack array and its top are as before. -/
theorem text_escape (m : Machine) (c after : Int)
    (hs : m.state = estate.ParsingText) (hc : c = 40 ∨ c = 41 ∨ c = 92) :
    mainLoopSeg m after [92, c] = .ok { m with stdout := m.stdout ++ [c] } := by
  have h1 : step m 92 c = .ok { m with state := estate.ParsingTextEscaped } := by
    simp [step, hs]
  have h2 : step { m with state := estate.ParsingTextEscaped } c after
      = .ok { m with stdout := m.stdout ++ [c] } := by
    rcases hc with h | h | h <;> subst h <;> simp [step, fputc, ← hs]
  rw [mainLoopSeg_cons]
  show (step m 92 c >>= _) = _
  rw [h1, ok_bind, mainLoopSeg_cons]
  show (step _ c after >>= _) = _
  rw [h2]
  rfl

/-- C7, at an input: in `(a x\(y\)\\)` the machine that has consumed `(a x` is in
`ParsingText`; the escape `\(` that follows writes `(` alone; and the whole input
is translated to `<a >x(y)\</a>`, the text being `x(y)\`. -/
theorem text_escape_witness :
    (final (reach (bytes "(a x") 92)).state = estate.ParsingText ∧
    mainLoopSeg (final (reach (bytes "(a x") 92)) 121 [92, 40]
      = .ok { final (reach (bytes "(a x") 92) with
              stdout := (final (reach (bytes "(a x") 92)).stdout ++ [40] } ∧
    failure (main (bytes "(a x\\(y\\)\\\\)")) = none ∧
    written (main (bytes "(a x\\(y\\)\\\\)")) = bytes "<a >x(y)\\</a>" :=
  ⟨by decide,
    text_escape (final (reach (bytes "(a x") 92)) 40 121 (by decide) (Or.inl rfl),
    by decide, by decide⟩

/-- C8: in `ParsingText` with `o` written, consuming `\` and then a byte `x` that
is none of `(`, `)`, `\` and not whitespace fails with `IllegalEscapeSequence`,
whatever follows, and what is written at the failure is `o`: neither the
backslash nor `x` is written. -/
theorem illegal_escape (m : Machine) (x after : Int) (rest : List Int)
    (hs : m.state = estate.ParsingText)
    (hx : x ≠ 40 ∧ x ≠ 41 ∧ x ≠ 92 ∧ whitespace x = false) :
    failure (mainLoopSeg m after (92 :: x :: rest)) = some Fatal.IllegalEscapeSequence ∧
    written (mainLoopSeg m after (92 :: x :: rest)) = m.stdout := by
  have h1 : step m 92 x = .ok { m with state := estate.ParsingTextEscaped } := by
    simp [step, hs]
  have h2 : step { m with state := estate.ParsingTextEscaped } x (peekOr after rest)
      = .error (Fatal.IllegalEscapeSequence, { m with state := estate.ParsingTextEscaped }) := by
    simp [step, hx.1, hx.2.1, hx.2.2.1, hx.2.2.2]
  have h : mainLoopSeg m after (92 :: x :: rest)
      = .error (Fatal.IllegalEscapeSequence, { m with state := estate.ParsingTextEscaped }) := by
    rw [mainLoopSeg_cons]
    show (step m 92 x >>= _) = _
    rw [h1, ok_bind, mainLoopSeg_cons, h2]
    rfl
  rw [h]
  exact ⟨rfl, rfl⟩

/-- C8, at an input: in `(a b\x)` the machine that has consumed `(a b` is in
`ParsingText` and has written `<a >b`; `\x` then fails with
`IllegalEscapeSequence` with `<a >b` written, and so does the whole run. -/
theorem illegal_escape_witness :
    (final (reach (bytes "(a b") 92)).state = estate.ParsingText ∧
    (final (reach (bytes "(a b") 92)).stdout = bytes "<a >b" ∧
    (failure (mainLoopSeg (final (reach (bytes "(a b") 92)) EOF (92 :: 120 :: [41]))
        = some Fatal.IllegalEscapeSequence ∧
      written (mainLoopSeg (final (reach (bytes "(a b") 92)) EOF (92 :: 120 :: [41]))
        = (final (reach (bytes "(a b") 92)).stdout) ∧
    failure (main (bytes "(a b\\x)")) = some Fatal.IllegalEscapeSequence ∧
    written (main (bytes "(a b\\x)")) = bytes "<a >b" :=
  ⟨by decide, by decide,
    illegal_escape (final (reach (bytes "(a b") 92)) 120 EOF [41] (by decide)
      ⟨by decide, by decide, by decide, by decide⟩,
    by decide, by decide⟩

/-- C9: the bytes of the input that precede the first `(` are the first bytes of
the output, unchanged and in order, whatever they are, and the byte written
next is the `<` of the first element; an input without `(` is translated
successfully to itself. -/
theorem passthrough_before_first_paren (pre rest : List Int)
    (hv : ValidInput pre) (hpre : (40 : Int) ∉ pre) :
    (∃ t, written (main (pre ++ 40 :: rest)) = pre ++ 60 :: t) ∧
    failure (main pre) = none ∧ written (main pre) = pre := by
  have hcopy : ∀ after, mainLoopSeg Machine.init after pre
      = .ok { Machine.init with stdout := pre } := by
    intro after
    rw [start_copies pre after Machine.init rfl hpre, map_mod_valid pre hv]
    rfl
  refine ⟨?_, ?_⟩
  · rw [written_main, mainLoop_eq_seg, mainLoopSeg_append, hcopy 40]
    rw [ok_bind, mainLoopSeg_cons, step_start_open _ _ rfl, ok_bind]
    obtain ⟨t, ht⟩ := mainLoopSeg_stdout rest EOF
      (start_element_name { Machine.init with stdout := pre })
    refine ⟨t, ?_⟩
    rw [written_eq_final, ht]
    simp [start_element_name, fputc]
  · have hmain : main pre = .ok { Machine.init with stdout := pre } := by
      unfold main
      rw [mainLoop_eq_seg, hcopy EOF]
      rfl
    rw [hmain]
    exact ⟨rfl, rfl⟩

/-- C9, at an input: the bytes `<?xml )\ '" ?>` that precede the first `(` of
`<?xml )\ '" ?>(a)` are valid, contain no `(`, and open the output. -/
theorem passthrough_before_first_paren_witness :
    ValidInput (bytes "<?xml )\\ \x27\" ?>") ∧ (40 : Int) ∉ bytes "<?xml )\\ \x27\" ?>" ∧
    ((∃ t, written (main (bytes "<?xml )\\ \x27\" ?>" ++ 40 :: bytes "a)"))
        = bytes "<?xml )\\ \x27\" ?>" ++ 60 :: t) ∧
      failure (main (bytes "<?xml )\\ \x27\" ?>")) = none ∧
      written (main (bytes "<?xml )\\ \x27\" ?>")) = bytes "<?xml )\\ \x27\" ?>") :=
  ⟨by decide, by decide,
    passthrough_before_first_paren (bytes "<?xml )\\ \x27\" ?>") (bytes "a)")
      (by decide) (by decide)⟩

/-- C10: on every valid input the top of the stack is never negative, and when
the program, having consumed `pre` without failure, is in `ParsingText` with an
empty stack, a `)` makes the run fail with `StackUnderflow`, whatever follows,
with nothing more written and the top still zero. -/
theorem stray_close_underflow (pre rest : List Int) (hv : ValidInput pre) :
    (∀ after, failure (reach pre after) = none →
      0 ≤ (final (reach pre after)).nameStackTop) ∧
    (failure (reach pre 41) = none →
      (final (reach pre 41)).state = estate.ParsingText →
      (final (reach pre 41)).nameStackTop = 0 →
      main (pre ++ 41 :: rest) = .error (Fatal.StackUnderflow, final (reach pre 41))) := by
  refine ⟨?_, ?_⟩
  · intro after hrun
    obtain ⟨a, _, hR⟩ := reach_refines pre after hv hrun
    exact hR.top_nonneg
  · intro hrun hs htop
    have hreach : mainLoopSeg Machine.init 41 pre = .ok (final (reach pre 41)) :=
      ok_of_failure_none hrun
    generalize final (reach pre 41) = m at hs htop hreach
    have hstep : step m 41 (peekOr EOF rest) = .error (Fatal.StackUnderflow, m) := by
      simp [step, hs, pop_name, htop]
    unfold main
    rw [mainLoop_eq_seg, mainLoopSeg_append, hreach, ok_bind, mainLoopSeg_cons, hstep]
    rfl

/-- C10, at an input: in `(a))` the program has closed `a` after `(a)`, written
`<a />`, and is in `ParsingText` with an empty stack; the extra `)` makes the
run fail with `StackUnderflow`, with `<a />` written. -/
theorem stray_close_underflow_witness :
    ValidInput (bytes "(a)") ∧
    (final (reach (bytes "(a)") 41)).stdout = bytes "<a />" ∧
    0 ≤ (final (reach (bytes "(a)") 41)).nameStackTop ∧
    main (bytes "(a)" ++ 41 :: []) = .error (Fatal.StackUnderflow, final (reach (bytes "(a)") 41)) ∧
    failure (main (bytes "(a))")) = some Fatal.StackUnderflow ∧
    written (main (bytes "(a))")) = bytes "<a />" :=
  ⟨by decide, by decide,
    (stray_close_underflow (bytes "(a)") [] (by decide)).1 41 (by decide),
    (stray_close_underflow (bytes "(a)") [] (by decide)).2 (by decide) (by decide) (by decide),
    by decide, by decide⟩

/-- C11: when the loop of `main` has consumed the whole input without failure and
the stack is not empty at the end of the input, `main` fails with
`UnexpectedEndOfInput` instead of succeeding, with nothing more written. -/
theorem truncated_input_fails (stdin : List Int)
    (hrun : failure (mainLoop Machine.init stdin) = none)
    (htop : (final (mainLoop Machine.init stdin)).nameStackTop ≠ 0) :
    main stdin
      = .error (Fatal.UnexpectedEndOfInput, final (mainLoop Machine.init stdin)) := by
  unfold main
  cases h : mainLoop Machine.init stdin with
  | error e => rw [h] at hrun; cases e; cases hrun
  | ok m =>
    rw [h] at htop
    have htop1 : m.nameStackTop ≠ 0 := htop
    show (if m.nameStackTop ≠ 0 then _ else _) = _
    rw [if_pos htop1]
    rfl

/-- C11, at an input: the loop consumes `(a (b)` without failure and ends with the
record of `a` on the stack; `main` fails with `UnexpectedEndOfInput`, with
`<a ><b />` written. -/
theorem truncated_input_fails_witness :
    failure (mainLoop Machine.init (bytes "(a (b)")) = none ∧
    (final (mainLoop Machine.init (bytes "(a (b)"))).nameStackTop = 2 ∧
    main (bytes "(a (b)")
      = .error (Fatal.UnexpectedEndOfInput, final (mainLoop Machine.init (bytes "(a (b)"))) ∧
    failure (main (bytes "(a (b)")) = some Fatal.UnexpectedEndOfInput ∧
    written (main (bytes "(a (b)")) = bytes "<a ><b />" :=
  ⟨by decide, by decide,
    truncated_input_fails (bytes "(a (b)") (by decide) (by decide),
    by decide, by decide⟩

/-- C12 (as stated, refuted): a name of exactly 127 bytes `a` is not accepted:
`(`, the name, `)` fails with `NameTooLong`, although 127 is not above 127; the
length is pushed with `push`, which refuses once `nameLen` has reached
`CHAR_MAX`. -/
theorem name_of_127_bytes_rejected :
    failure (main (40 :: List.replicate 127 97 ++ [41])) = some Fatal.NameTooLong ∧
    ¬ (failure (main (40 :: List.replicate 127 97 ++ [41])) = some Fatal.NameTooLong ↔
        127 < (List.replicate 127 (97 : Int)).length) := by
  have h : failure (main (40 :: List.replicate 127 97 ++ [41])) = some Fatal.NameTooLong :=
    main_name_too_long (List.replicate 127 97) (by simp)
      (fun b hb => by rw [List.eq_of_mem_replicate hb]; decide)
  refine ⟨h, fun hiff => ?_⟩
  have := hiff.1 h
  simp at this

/-- C12 (amended): element names are bounded to 126 bytes: for every name (valid
bytes, none whitespace, `(`, `)` or `\`), translating `(`, name, `)` fails with
`NameTooLong` if and only if the name has more than 126 bytes; a name of at most
126 bytes is accepted and written as `<`, name, ` />`. -/
theorem name_length_bound (name : List Int) (hv : ValidInput name)
    (hname : ∀ b ∈ name, whitespace b = false ∧ b ≠ 40 ∧ b ≠ 41 ∧ b ≠ 92) :
    (failure (main (40 :: name ++ [41])) = some Fatal.NameTooLong ↔ 126 < name.length) ∧
    (name.length ≤ 126 →
      failure (main (40 :: name ++ [41])) = none ∧
      written (main (40 :: name ++ [41])) = 60 :: name ++ [32, 47, 62]) := by
  have hname1 : ∀ b ∈ name, whitespace b = false ∧ b ≠ 41 :=
    fun b hb => ⟨(hname b hb).1, (hname b hb).2.2.1⟩
  have hok : name.length ≤ 126 →
      failure (main (40 :: name ++ [41])) = none ∧
      written (main (40 :: name ++ [41])) = 60 :: name ++ [32, 47, 62] := by
    intro hlen
    unfold main
    rw [mainLoop_self_closing name hlen hv hname1]
    exact ⟨rfl, rfl⟩
  refine ⟨⟨fun h => ?_, fun h => main_name_too_long name (by omega) hname1⟩, hok⟩
  by_contra hlt
  rw [(hok (by omega)).1] at h
  cases h

/-- C12 (amended), at an input: a name of 126 bytes `a` is accepted and written as
`<`, name, ` />`; it does not fail with `NameTooLong`. -/
theorem name_length_bound_witness :
    ValidInput (List.replicate 126 97) ∧
    ((failure (main (40 :: List.replicate 126 97 ++ [41])) = some Fatal.NameTooLong ↔
        126 < (List.replicate 126 (97 : Int)).length) ∧
      ((List.replicate 126 (97 : Int)).length ≤ 126 →
        failure (main (40 :: List.replicate 126 97 ++ [41])) = none ∧
        written (main (40 :: List.replicate 126 97 ++ [41]))
          = 60 :: List.replicate 126 97 ++ [32, 47, 62])) ∧
    failure (main (40 :: List.replicate 126 97 ++ [41])) = none :=
  ⟨fun b hb => by rw [List.eq_of_mem_replicate hb]; decide,
    name_length_bound (List.replicate 126 97)
      (fun b hb => by rw [List.eq_of_mem_replicate hb]; decide)
      (fun b hb => by rw [List.eq_of_mem_replicate hb]; decide),
    ((name_length_bound (List.replicate 126 97)
      (fun b hb => by rw [List.eq_of_mem_replicate hb]; decide)
      (fun b hb => by rw [List.eq_of_mem_replicate hb]; decide)).2 (by simp)).1⟩

/-- C13 (as stated, refuted): a push attempted when all 16384 bytes are in use does
not always fail with `StackOverflow`.  On the input made of 128 nested elements
with names of 126 bytes `a`, then `( `, then `(` and 128 bytes `a`, the last byte
is pushed on a full array (`nameStackTop = 16384`) and the run fails with
`NameTooLong`: `push` checks `nameLen` first. -/
theorem full_stack_push_name_too_long :
    (final (main (repeatSeg (40 :: List.replicate 126 97 ++ [32]) 128
        ++ ([40, 32] ++ 40 :: (List.replicate 127 97 ++ [97]))))).nameStackTop = 16384 ∧
    failure (main (repeatSeg (40 :: List.replicate 126 97 ++ [32]) 128
        ++ ([40, 32] ++ 40 :: (List.replicate 127 97 ++ [97])))) = some Fatal.NameTooLong ∧
    failure (main (repeatSeg (40 :: List.replicate 126 97 ++ [32]) 128
        ++ ([40, 32] ++ 40 :: (List.replicate 127 97 ++ [97])))) ≠ some Fatal.StackOverflow := by
  refine ⟨full_array_name_too_long.2, full_array_name_too_long.1, ?_⟩
  rw [full_array_name_too_long.1]
  decide

/-- C13 (amended): on every valid input the number of stack bytes in use stays
between 0 and 16384; every `push` that writes does so at the index
`nameStackTop`, which is then below 16384, and changes no other cell; a `push`
on a full array fails and writes nothing, with `StackOverflow` when `nameLen` is
below 127 and with `NameTooLong` when `nameLen` has reached 127.  Opening 8192
nested elements named `a` fills the array without failure, and the name byte of
the 8193rd fails with `StackOverflow`. -/
theorem stack_storage_bound (pre : List Int) (after : Int) (hv : ValidInput pre)
    (hrun : failure (reach pre after) = none) :
    (0 ≤ (final (reach pre after)).nameStackTop ∧
      (final (reach pre after)).nameStackTop ≤ 16384) ∧
    (∀ (m : Machine) (x : Int) (m1 : Machine), push x m = .ok m1 →
      m.nameStackTop < 16384 ∧ m1.nameStackTop = m.nameStackTop + 1 ∧
      ∀ i, i ≠ m.nameStackTop → m1.nameStack i = m.nameStack i) ∧
    (∀ (m : Machine) (x : Int), 16384 ≤ m.nameStackTop →
      (m.nameLen < 127 → push x m = .error (Fatal.StackOverflow, m)) ∧
      (127 ≤ m.nameLen → push x m = .error (Fatal.NameTooLong, m))) ∧
    (failure (reach (repeatSeg [40, 97, 32] 8192) 40) = none ∧
      (final (reach (repeatSeg [40, 97, 32] 8192) 40)).nameStackTop = 16384 ∧
      failure (main (repeatSeg [40, 97, 32] 8192 ++ [40, 97])) = some Fatal.StackOverflow) := by
  refine ⟨⟨?_, reach_top_le pre after hv hrun⟩, ?_, fun m x h => push_full x m h, ?_⟩
  · obtain ⟨a, _, hR⟩ := reach_refines pre after hv hrun
    exact hR.top_nonneg
  · intro m x m1 h
    obtain ⟨_, ht, hm1⟩ := push_ok h
    subst hm1
    simp only [NAMESTACKZ] at ht
    exact ⟨by omega, rfl, fun i hi => if_neg hi⟩
  · obtain ⟨m1, h1, ht, _⟩ := nested_8192 40
    have hr : reach (repeatSeg [40, 97, 32] 8192) 40 = .ok m1 := h1
    rw [hr]
    exact ⟨rfl, ht, nested_8193_overflows⟩

/-- C13 (amended), at an input: after `(a (bc` four bytes of the stack are in use
(the two bytes of the record of `a` and the two bytes of the name being
captured). -/
theorem stack_storage_bound_witness :
    ValidInput (bytes "(a (bc") ∧ failure (reach (bytes "(a (bc") 32) = none ∧
    (final (reach (bytes "(a (bc") 32)).nameStackTop = 4 ∧
    (0 ≤ (final (reach (bytes "(a (bc") 32)).nameStackTop ∧
      (final (reach (bytes "(a (bc") 32)).nameStackTop ≤ 16384) :=
  ⟨by decide, by decide, by decide,
    (stack_storage_bound (bytes "(a (bc") 32 (by decide) (by decide)).1⟩

/-- C14: for every name of 1 to 126 bytes (none whitespace, `(`, `)`, `\`), every
whitespace byte `w` and every non-empty text `c :: t` whose bytes are none of `(`,
`)`, `\` and whose first byte `c` is not whitespace, the input `(`, name, `w`,
text, `)` is translated successfully to exactly `<`, name, `w`, `>`, text, `</`,
name, `>`, and the stack is empty at the end. -/
theorem element_with_text (name : List Int) (w c : Int) (t : List Int)
    (hlen : 1 ≤ name.length ∧ name.length ≤ 126) (hv : ValidInput name)
    (hname : ∀ b ∈ name, whitespace b = false ∧ b ≠ 40 ∧ b ≠ 41 ∧ b ≠ 92)
    (hw : whitespace w = true)
    (hvt : ValidInput (c :: t)) (ht : ∀ b ∈ c :: t, b ≠ 40 ∧ b ≠ 41 ∧ b ≠ 92)
    (hc : whitespace c = false) :
    failure (main (40 :: name ++ w :: (c :: t) ++ [41])) = none ∧
    written (main (40 :: name ++ w :: (c :: t) ++ [41]))
      = 60 :: name ++ w :: 62 :: (c :: t) ++ 60 :: 47 :: name ++ [62] ∧
    (final (main (40 :: name ++ w :: (c :: t) ++ [41]))).nameStackTop = 0 := by
  have hc0 := ht c (List.mem_cons_self c t)
  have hvc : isByte c := hvt c (List.mem_cons_self c t)
  have hvt1 : ValidInput t := fun b hb => hvt b (List.mem_cons_of_mem c hb)
  have hrec := topRecord_after_capture (fun _ => 0) 0 name
  simp only [zero_add] at hrec
  have hloop : mainLoop Machine.init (40 :: name ++ w :: (c :: t) ++ [41]) = .ok
      { state := estate.ParsingText
        nameStack := fun i => if i = (name.length : Int) then (name.length : Int)
          else writeBytes (fun _ => 0) 0 name i
        nameStackTop := 0
        nameLen := name.length + 1
        seenQuote := 0
        stdout := 60 :: name ++ w :: 62 :: (c :: t) ++ 60 :: 47 :: name ++ [62] } := by
    have e : 40 :: name ++ w :: (c :: t) ++ [41]
        = 40 :: ((name ++ [w]) ++ c :: (t ++ 41 :: [])) := by simp
    rw [mainLoop_eq_seg, e, mainLoopSeg_cons, step_open_paren _ _ (Or.inl rfl), ok_bind,
      mainLoopSeg_append,
      capture_named _ name w c rfl rfl hlen.2 hv
        (fun b hb => ⟨(hname b hb).1, (hname b hb).2.2.1⟩) hw
        (by simp only [Machine.init]; omega),
      ok_bind, mainLoopSeg_cons,
      step_attributes_text _ c _ rfl ⟨hc0.1, hc0.2.1, hc0.2.2, hc⟩, ok_bind,
      mainLoopSeg_append,
      text_copies t 41 _ rfl (fun b hb => ht b (List.mem_cons_of_mem c hb)), ok_bind,
      mainLoopSeg_cons,
      step_close_named _ _ name rfl hv (by simp only [Machine.init]; omega)
        (by simp [Machine.init]) (by simpa [Machine.init] using hrec.2),
      ok_bind]
    simp [mainLoopSeg, Machine.init, map_mod_valid t hvt1, mod_byte c hvc]
  unfold main
  rw [hloop]
  exact ⟨rfl, rfl, rfl⟩

/-- C14, at an input: `(p` tab `Hello, world)` is translated to `<p` tab
`>Hello, world</p>`. -/
theorem element_with_text_witness :
    (1 ≤ (bytes "p").length ∧ (bytes "p").length ≤ 126) ∧ whitespace 9 = true ∧
    (failure (main (40 :: bytes "p" ++ 9 :: (72 :: bytes "ello, world") ++ [41])) = none ∧
      written (main (40 :: bytes "p" ++ 9 :: (72 :: bytes "ello, world") ++ [41]))
        = 60 :: bytes "p" ++ 9 :: 62 :: (72 :: bytes "ello, world")
          ++ 60 :: 47 :: bytes "p" ++ [62] ∧
      (final (main (40 :: bytes "p" ++ 9 :: (72 :: bytes "ello, world") ++ [41]))).nameStackTop
        = 0) ∧
    written (main (bytes "(p\tHello, world)")) = bytes "<p\t>Hello, world</p>" :=
  ⟨by decide, by decide,
    element_with_text (bytes "p") 9 72 (bytes "ello, world") (by decide) (by decide)
      (by decide) (by decide) (by decide) (by decide) (by decide),
    by decide⟩

/-- C15: quote tracking.  Consuming `=` in `ParsingAttribute` enters
`ParsingAttributeValue` with `seenQuote` reset to none (zero).  In
`ParsingAttributeValue` every byte is written verbatim and the stack is left
alone; while no quote is open the first `"` or `'` becomes the open quote, and
once a quote is open only a byte equal to it returns to `ParsingAttributes`:
every other byte keeps the state and the open quote. -/
theorem quote_tracking (m : Machine) (c n : Int) (hc : isByte c) :
    (m.state = estate.ParsingAttribute →
      step m 61 n = .ok { m with
        state := estate.ParsingAttributeValue
        seenQuote := 0
        stdout := m.stdout ++ [61] }) ∧
    (m.state = estate.ParsingAttributeValue →
      step m c n = .ok { m with
        state := if m.seenQuote ≠ 0 ∧ c = m.seenQuote then estate.ParsingAttributes
          else estate.ParsingAttributeValue
        seenQuote := if m.seenQuote = 0 ∧ (c = 34 ∨ c = 39) then c else m.seenQuote
        stdout := m.stdout ++ [c] }) := by
  refine ⟨?_, ?_⟩
  · intro hs
    simp [step, hs, fputc]
  · intro hs
    simp only [step, hs, fputc, mod_byte c hc]
    by_cases hz : m.seenQuote = 0
    · by_cases hq : c = 34 ∨ c = 39
      · simp [hz, hq, ← hs]
      · simp [hz, hq, ← hs]
    · by_cases hq : c = m.seenQuote
      · simp [hz, hq]
      · simp [hz, hq, ← hs]

/-- C15, at an input: in `(a \t="it's (x)")`, after `(a \t=` no quote is open and
`"` opens the value; after `(a \t="it` the quote `"` is open and `'` keeps the
state, as `(` does after `(a \t="it's `, and `"` after `(a \t="it's (x)` closes
the value; the whole input is translated to `<a t="it's (x)" />`. -/
theorem quote_tracking_witness :
    (final (reach (bytes "(a \\t=") 34)).state = estate.ParsingAttributeValue ∧
    (final (reach (bytes "(a \\t=") 34)).seenQuote = 0 ∧
    (final (mainLoopSeg (final (reach (bytes "(a \\t=") 34)) 105 [34])).seenQuote = 34 ∧
    (final (mainLoopSeg (final (reach (bytes "(a \\t=\"it") 39)) 115 [39])).state
      = estate.ParsingAttributeValue ∧
    (final (mainLoopSeg (final (reach (bytes "(a \\t=\"it\x27s ") 40)) 120 [40])).state
      = estate.ParsingAttributeValue ∧
    (final (mainLoopSeg (final (reach (bytes "(a \\t=\"it\x27s (x)") 34)) 41 [34])).state
      = estate.ParsingAttributes ∧
    step (final (reach (bytes "(a \\t=\"it") 39)) 39 115
      = .ok { final (reach (bytes "(a \\t=\"it") 39) with
        state := if (final (reach (bytes "(a \\t=\"it") 39)).seenQuote ≠ 0 ∧
            39 = (final (reach (bytes "(a \\t=\"it") 39)).seenQuote
          then estate.ParsingAttributes else estate.ParsingAttributeValue
        seenQuote := if (final (reach (bytes "(a \\t=\"it") 39)).seenQuote = 0 ∧
            ((39 : Int) = 34 ∨ (39 : Int) = 39)
          then 39 else (final (reach (bytes "(a \\t=\"it") 39)).seenQuote
        stdout := (final (reach (bytes "(a \\t=\"it") 39)).stdout ++ [39] } ∧
    failure (main (bytes "(a \\t=\"it\x27s (x)\")")) = none ∧
    written (main (bytes "(a \\t=\"it\x27s (x)\")")) = bytes "<a t=\"it\x27s (x)\" />" :=
  ⟨by decide, by decide, by decide, by decide, by decide, by decide,
    (quote_tracking (final (reach (bytes "(a \\t=\"it") 39)) 39 115 (by decide)).2 (by decide),
    by decide, by decide⟩

/-- C16: in `ParsingAttribute` every byte is written verbatim and the stack is
left alone; `=` enters `ParsingAttributeValue` (with `seenQuote` reset), the
space byte 32 returns to `ParsingAttributes`, and every other byte, tab,
newline, the other whitespace bytes, `(` and `)` included, keeps the state
`ParsingAttribute`. -/
theorem attribute_state_steps (m : Machine) (c n : Int)
    (hs : m.state = estate.ParsingAttribute) (hc : isByte c) :
    step m c n = .ok { m with
      state := if c = 61 then estate.ParsingAttributeValue
        else if c = 32 then estate.ParsingAttributes else estate.ParsingAttribute
      seenQuote := if c = 61 then 0 else m.seenQuote
      stdout := m.stdout ++ [c] } := by
  simp only [step, hs, fputc, mod_byte c hc]
  by_cases h1 : c = 61
  · simp [h1]
  · by_cases h2 : c = 32
    · simp [h2]
    · simp [h1, h2, ← hs]

/-- C16, at an input: after `(a \enabled` the program is in `ParsingAttribute`;
a tab, a newline, `(` or `)` there keeps the state, a space returns to
`ParsingAttributes`; and `(a \enabled )` is translated to `<a enabled  />`. -/
theorem attribute_state_steps_witness :
    (final (reach (bytes "(a \\enabled") 32)).state = estate.ParsingAttribute ∧
    (final (step (final (reach (bytes "(a \\enabled") 9)) 9 41)).state
      = estate.ParsingAttribute ∧
    (final (step (final (reach (bytes "(a \\enabled") 10)) 10 41)).state
      = estate.ParsingAttribute ∧
    (final (step (final (reach (bytes "(a \\enabled") 40)) 40 41)).state
      = estate.ParsingAttribute ∧
    (final (step (final (reach (bytes "(a \\enabled") 41)) 41 EOF)).state
      = estate.ParsingAttribute ∧
    step (final (reach (bytes "(a \\enabled") 32)) 32 41
      = .ok { final (reach (bytes "(a \\enabled") 32) with
        state := if (32 : Int) = 61 then estate.ParsingAttributeValue
          else if (32 : Int) = 32 then estate.ParsingAttributes else estate.ParsingAttribute
        seenQuote := if (32 : Int) = 61 then 0
          else (final (reach (bytes "(a \\enabled") 32)).seenQuote
        stdout := (final (reach (bytes "(a \\enabled") 32)).stdout ++ [32] } ∧
    failure (main (bytes "(a \\enabled )")) = none ∧
    written (main (bytes "(a \\enabled )")) = bytes "<a enabled  />" :=
  ⟨by decide, by decide, by decide, by decide, by decide,
    attribute_state_steps (final (reach (bytes "(a \\enabled") 32)) 32 41 (by decide) (by decide),
    by decide, by decide⟩

/-- C17: a byte consumed in `ParsingStart`, `ParsingAttribute`,
`ParsingAttributeValue` or `ParsingTextEscaped`, and a byte other than `)`
consumed in `ParsingAttributes` or `ParsingText`, leaves the stack array and its
top as they were, whether the step succeeds or fails (it can fail only in
`ParsingTextEscaped`). -/
theorem stack_frame (m : Machine) (c n : Int)
    (h : m.state = estate.ParsingStart ∨ m.state = estate.ParsingAttribute ∨
      m.state = estate.ParsingAttributeValue ∨ m.state = estate.ParsingTextEscaped ∨
      ((m.state = estate.ParsingAttributes ∨ m.state = estate.ParsingText) ∧ c ≠ 41)) :
    (final (step m c n)).nameStack = m.nameStack ∧
    (final (step m c n)).nameStackTop = m.nameStackTop ∧
    (m.state ≠ estate.ParsingTextEscaped → failure (step m c n) = none) :=
  step_keeps_stack m c n h

/-- C17, at an input: after `(a \k="v" x` the program is in `ParsingText` with
the record of `a` on the stack, and consuming `(` there leaves the array and
the top (2) as they were. -/
theorem stack_frame_witness :
    (final (reach (bytes "(a \\k=\"v\" x") 40)).state = estate.ParsingText ∧
    (final (reach (bytes "(a \\k=\"v\" x") 40)).nameStackTop = 2 ∧
    ((final (step (final (reach (bytes "(a \\k=\"v\" x") 40)) 40 98)).nameStack
        = (final (reach (bytes "(a \\k=\"v\" x") 40)).nameStack ∧
      (final (step (final (reach (bytes "(a \\k=\"v\" x") 40)) 40 98)).nameStackTop
        = (final (reach (bytes "(a \\k=\"v\" x") 40)).nameStackTop ∧
      ((final (reach (bytes "(a \\k=\"v\" x") 40)).state ≠ estate.ParsingTextEscaped →
        failure (step (final (reach (bytes "(a \\k=\"v\" x") 40)) 40 98) = none)) :=
  ⟨by decide, by decide,
    stack_frame (final (reach (bytes "(a \\k=\"v\" x") 40)) 40 98
      (Or.inr (Or.inr (Or.inr (Or.inr ⟨Or.inr (by decide), by decide⟩))))⟩

/-- C18: for every finite tree of elements whose names are 1 to 126 valid bytes,
none of them whitespace, `(`, `)` or `\`, and whose open names fit the 16384 bytes
of the stack along every path from the root (`Tree.ok 0`), translating the XBLY
rendering of the tree succeeds with an empty stack and writes exactly its XML
rendering. -/
theorem nested_elements (t : Tree) (hok : t.ok 0) :
    failure (main t.xbly) = none ∧ written (main t.xbly) = t.xml ∧
    (final (main t.xbly)).nameStackTop = 0 := by
  obtain ⟨m1, h1, _, ht, _, ho⟩ := tree_run t Machine.init EOF (Or.inl rfl) (le_refl _) hok
  have htop : m1.nameStackTop = 0 := ht
  have hmain : main t.xbly = .ok m1 := by
    unfold main
    rw [mainLoop_eq_seg, h1]
    show (if m1.nameStackTop ≠ 0 then _ else _) = _
    rw [if_neg (by rw [htop]; simp)]
    rfl
  rw [hmain]
  refine ⟨rfl, ?_, htop⟩
  show m1.stdout = t.xml
  rw [ho]
  simp [Machine.init]

/-- C18, at an input: the tree `a` with children `b` (with child `c`) and `d` is
rendered `(a (b (c)) (d))`, its names fit, and it is translated to
`<a ><b ><c /></b> <d /></a>`. -/
theorem nested_elements_witness :
    (Tree.node (bytes "a")
      [Tree.node (bytes "b") [Tree.node (bytes "c") []], Tree.node (bytes "d") []]).xbly
      = bytes "(a (b (c)) (d))" ∧
    (Tree.node (bytes "a")
      [Tree.node (bytes "b") [Tree.node (bytes "c") []], Tree.node (bytes "d") []]).xml
      = bytes "<a ><b ><c /></b> <d /></a>" ∧
    (failure (main (Tree.node (bytes "a")
      [Tree.node (bytes "b") [Tree.node (bytes "c") []], Tree.node (bytes "d") []]).xbly) = none ∧
     written (main (Tree.node (bytes "a")
      [Tree.node (bytes "b") [Tree.node (bytes "c") []], Tree.node (bytes "d") []]).xbly)
      = (Tree.node (bytes "a")
      [Tree.node (bytes "b") [Tree.node (bytes "c") []], Tree.node (bytes "d") []]).xml ∧
     (final (main (Tree.node (bytes "a")
      [Tree.node (bytes "b") [Tree.node (bytes "c") []],
        Tree.node (bytes "d") []]).xbly)).nameStackTop = 0) ∧
    written (main (bytes "(a (b (c)) (d))")) = bytes "<a ><b ><c /></b> <d /></a>" :=
  ⟨by decide, by decide,
    nested_elements (Tree.node (bytes "a")
      [Tree.node (bytes "b") [Tree.node (bytes "c") []], Tree.node (bytes "d") []])
      (by simp only [Tree.ok, Tree.okAll]; decide),
    by decide⟩

/-- C19: in every state reached on a valid input, the in-use part of the stack
array is the concatenation of the complete records of a list of names (`Decodes`:
the bytes of each name followed by one byte holding their number, which is at
most 126), followed, in `ParsingElementName` only, by the `nameLen` bytes of the
name being captured.  So when `pop_name` or `discard_name` passes its emptiness
check, outside of name capture, the stored length `len` is not negative and
`len + 1 ≤ nameStackTop`; and when `)` ends a name capture, the record that
`push(nameLen)` completes and `discard_name` removes has the same property. -/
theorem stack_well_formed (pre : List Int) (after : Int) (hv : ValidInput pre)
    (hrun : failure (reach pre after) = none) :
    ∃ (names : List (List Int)) (cap : List Int),
      ((final (reach pre after)).state = estate.ParsingElementName →
        (cap.length : Int) = (final (reach pre after)).nameLen ∧
        readBytes (final (reach pre after)).nameStack
          ((final (reach pre after)).nameStackTop - (final (reach pre after)).nameLen)
          cap.length = cap.map toChar ∧
        Decodes (final (reach pre after)).nameStack names
          ((final (reach pre after)).nameStackTop - (final (reach pre after)).nameLen)) ∧
      ((final (reach pre after)).state ≠ estate.ParsingElementName →
        Decodes (final (reach pre after)).nameStack names
          (final (reach pre after)).nameStackTop) ∧
      ((final (reach pre after)).state ≠ estate.ParsingElementName →
        0 < (final (reach pre after)).nameStackTop →
        0 ≤ (final (reach pre after)).nameStack ((final (reach pre after)).nameStackTop - 1) ∧
        (final (reach pre after)).nameStack ((final (reach pre after)).nameStackTop - 1) + 1
          ≤ (final (reach pre after)).nameStackTop) ∧
      ((final (reach pre after)).state = estate.ParsingElementName →
        ∀ m1, push (final (reach pre after)).nameLen (final (reach pre after)) = .ok m1 →
          0 < m1.nameStackTop ∧ 0 ≤ m1.nameStack (m1.nameStackTop - 1) ∧
          m1.nameStack (m1.nameStackTop - 1) + 1 ≤ m1.nameStackTop) := by
  obtain ⟨a, _, hR⟩ := reach_refines pre after hv hrun
  generalize final (reach pre after) = m at hR ⊢
  have hn := hR.names
  refine ⟨a.openNames, a.capture, ?_, ?_, ?_, ?_⟩
  · intro hs
    rw [if_pos hs] at hn
    exact ⟨hn.1, hn.2.2.1, hn.2.2.2⟩
  · intro hs
    rw [if_neg hs] at hn
    exact hn
  · intro hs htop
    rw [if_neg hs] at hn
    obtain ⟨N, rest, _, _, hlen, _, hdec⟩ := Decodes_top hn htop
    have := Decodes_nonneg _ _ _ hdec
    rw [hlen] at this ⊢
    omega
  · intro hs m1 hp
    rw [if_pos hs] at hn
    obtain ⟨hlen, _, _, hdec⟩ := hn
    have hb := Decodes_nonneg _ _ _ hdec
    obtain ⟨hl, _, hm1⟩ := push_ok hp
    subst hm1
    simp only [CHAR_MAX] at hl
    simp only [add_sub_cancel_right, if_true]
    rw [toChar_small _ (by omega) (by omega)]
    omega

/-- C19, at an input: after `(ab (c` the stack holds the record of `ab` (bytes
`a`, `b`, 2) and the one byte `c` of the name being captured. -/
theorem stack_well_formed_witness :
    ValidInput (bytes "(ab (c") ∧ failure (reach (bytes "(ab (c") 32) = none ∧
    (final (reach (bytes "(ab (c") 32)).state = estate.ParsingElementName ∧
    (final (reach (bytes "(ab (c") 32)).nameStackTop = 4 ∧
    (final (reach (bytes "(ab (c") 32)).nameLen = 1 ∧
    readBytes (final (reach (bytes "(ab (c") 32)).nameStack 0 4 = [97, 98, 2, 99] ∧
    ∃ (names : List (List Int)) (cap : List Int),
      ((final (reach (bytes "(ab (c") 32)).state = estate.ParsingElementName →
        (cap.length : Int) = (final (reach (bytes "(ab (c") 32)).nameLen ∧
        readBytes (final (reach (bytes "(ab (c") 32)).nameStack
          ((final (reach (bytes "(ab (c") 32)).nameStackTop
            - (final (reach (bytes "(ab (c") 32)).nameLen)
          cap.length = cap.map toChar ∧
        Decodes (final (reach (bytes "(ab (c") 32)).nameStack names
          ((final (reach (bytes "(ab (c") 32)).nameStackTop
            - (final (reach (bytes "(ab (c") 32)).nameLen)) ∧
      ((final (reach (bytes "(ab (c") 32)).state ≠ estate.ParsingElementName →
        Decodes (final (reach (bytes "(ab (c") 32)).nameStack names
          (final (reach (bytes "(ab (c") 32)).nameStackTop) ∧
      ((final (reach (bytes "(ab (c") 32)).state ≠ estate.ParsingElementName →
        0 < (final (reach (bytes "(ab (c") 32)).nameStackTop →
        0 ≤ (final (reach (bytes "(ab (c") 32)).nameStack
          ((final (reach (bytes "(ab (c") 32)).nameStackTop - 1) ∧
        (final (reach (bytes "(ab (c") 32)).nameStack
          ((final (reach (bytes "(ab (c") 32)).nameStackTop - 1) + 1
          ≤ (final (reach (bytes "(ab (c") 32)).nameStackTop) ∧
      ((final (reach (bytes "(ab (c") 32)).state = estate.ParsingElementName →
        ∀ m1, push (final (reach (bytes "(ab (c") 32)).nameLen
            (final (reach (bytes "(ab (c") 32)) = .ok m1 →
          0 < m1.nameStackTop ∧ 0 ≤ m1.nameStack (m1.nameStackTop - 1) ∧
          m1.nameStack (m1.nameStackTop - 1) + 1 ≤ m1.nameStackTop) :=
  ⟨by decide, by decide, by decide, by decide, by decide, by decide,
    stack_well_formed (bytes "(ab (c") 32 (by decide) (by decide)⟩

/-- C20: once a `(` has been consumed, the state is never `ParsingStart` again:
after every input `pre` that contains `(`, whatever byte follows, the program
is not in `ParsingStart`, whether the run over `pre` succeeded or failed, and
whether or not the stack is empty. -/
theorem start_never_reentered (pre : List Int) (after : Int) (h : (40 : Int) ∈ pre) :
    (final (reach pre after)).state ≠ estate.ParsingStart :=
  mainLoopSeg_leaves_start pre after Machine.init h

/-- C20, at an input: after the closed root `(a)` the stack is empty and the
state is `ParsingText`, not `ParsingStart`; what follows is handled by the rules
of `ParsingText`: in `(a)(b)` a further `(` opens another top-level element, in
`(a))` the `)` is a `StackUnderflow`, in `(a)\x` the escape is an
`IllegalEscapeSequence`, and in `(a)\(` the escaped `(` is written alone. -/
theorem start_never_reentered_witness :
    (40 : Int) ∈ bytes "(a)" ∧
    (final (reach (bytes "(a)") 92)).state ≠ estate.ParsingStart ∧
    (final (reach (bytes "(a)") 92)).state = estate.ParsingText ∧
    (final (reach (bytes "(a)") 92)).nameStackTop = 0 ∧
    failure (main (bytes "(a)(b)")) = none ∧
    written (main (bytes "(a)(b)")) = bytes "<a /><b />" ∧
    failure (main (bytes "(a))")) = some Fatal.StackUnderflow ∧
    failure (main (bytes "(a)\\x")) = some Fatal.IllegalEscapeSequence ∧
    written (main (bytes "(a)\\x")) = bytes "<a />" ∧
    written (main (bytes "(a)\\(")) = bytes "<a />(" :=
  ⟨by decide, start_never_reentered (bytes "(a)") 92 (by decide), by decide, by decide,
    by decide, by decide, by decide, by decide, by decide, by decide⟩

end Xbly
